import Mathlib

/-!
Verification development for the block template generator (`mining.go`) of the
prova blockchain node.  The Go source is shallowly embedded: pure helper
functions become Lean functions, the candidate-builder loop and the assembly
loop become folds / fuel-based recursion over an explicit state, machine
integers (`uint32`, `int64`) are modelled as `Nat`/`Int` with explicit
wrap-around where the source performs (or checks for) overflow, and external
collaborators (chain store, script engine, mempool, signature engine) are
fields of an `Env` record holding arbitrary pure functions.
-/

namespace Prova

/-! ### Machine integer helpers -/

/-- Modulus of `uint32` arithmetic. -/
def W32 : Nat := 4294967296

/-- Modulus of `int64` arithmetic, as an integer. -/
def W64 : Int := 18446744073709551616

/-- Half of `W64`: the magnitude of the smallest `int64`. -/
def HALF64 : Int := 9223372036854775808

/-- Wrap an unbounded integer into the `int64` range, two-complement style. -/
def i64 (x : Int) : Int := (x + HALF64) % W64 - HALF64

/-- Addition of two `int64` values with silent wrap-around, as in Go. -/
def add64 (a b : Int) : Int := i64 (a + b)

/-- Negation of an `int64` value with silent wrap-around, as in Go
(note that negating the smallest `int64` returns it unchanged). -/
def neg64 (a : Int) : Int := i64 (-a)

/-- Reduce a natural number into the `uint32` range. -/
def u32 (n : Nat) : Nat := n % W32

/-- Conversion of a (possibly negative) integer to `uint32`, as Go's cast does. -/
def u32ofInt (x : Int) : Nat := (x % (W32 : Int)).toNat

/-- Subtraction in `uint32` arithmetic (wraps on underflow), for operands
already reduced below `W32`. -/
def sub32 (a b : Nat) : Nat := (a + (W32 - b % W32)) % W32

/-! ### Time values (Go `time.Time` restricted to second/nanosecond parts) -/

/-- Wall-clock value: whole seconds plus a nanosecond part below `10^9`.  Only
the ordering and second-granularity arithmetic of Go's `time.Time` are
needed by the generator. -/
structure GoTime where
  sec : Int
  nsec : Nat
deriving DecidableEq

/-- Ordering test corresponding to Go's `Time.Before`. -/
def GoTime.before (a b : GoTime) : Bool :=
  decide (a.sec < b.sec ∨ (a.sec = b.sec ∧ a.nsec < b.nsec))

/-- Add a whole number of seconds, corresponding to `Time.Add(d * time.Second)`. -/
def GoTime.addSec (t : GoTime) (d : Int) : GoTime := ⟨t.sec + d, t.nsec⟩

/-! ### Wire / script constants -/

/-- Script opcode `OP_TRUE` (anyone-can-spend single-opcode script). -/
def opTrue : Nat := 81

/-- Script opcode `OP_RETURN` (null-data script). -/
def opReturn : Nat := 106

/-- Sentinel previous-output index used by coinbase inputs
(`wire.MaxPrevOutIndex`). -/
def maxPrevOutIndex : Nat := 4294967295

/-- Maximum transaction input sequence number (`wire.MaxTxInSequenceNum`). -/
def maxTxInSequenceNum : Nat := 4294967295

/-- Maximum serialized size of a variable-length integer
(`wire.MaxVarIntPayload`). -/
def maxVarIntPayload : Nat := 9

/-- Byte content of the `"/prova/"` coinbase flags string. -/
def coinbaseFlagsBytes : List Nat := [47, 112, 114, 111, 118, 97, 47]

/-- Version constant `generatedBlockVersion` of generated blocks. -/
def generatedBlockVersion : Nat := 4

/-- Script-class code standing for `txscript.ProvaAdminTy`.  The script
engine itself is external; its classifier is the arbitrary function
`Env.typeOfScript`, so fixing the numeric code of the administrative class
loses no generality. -/
def provaAdminTy : Nat := 1

/-- Serialized size of a Bitcoin-wire variable-length integer
(`wire.VarIntSerializeSize`). -/
def varIntSerializeSize (n : Nat) : Nat :=
  if n < 253 then 1 else if n < 65536 then 3 else if n < W32 then 5 else 9

/-! ### Transactions and blocks -/

/-- Reference to one output of a previous transaction (`wire.OutPoint`). -/
structure OutPoint where
  hash : Nat
  index : Nat
deriving DecidableEq

/-- Transaction input (`wire.TxIn`). -/
structure TxIn where
  prevOut : OutPoint
  sigScript : List Nat
  sequence : Nat
deriving DecidableEq

/-- Transaction output (`wire.TxOut`). -/
structure TxOut where
  value : Int
  pkScript : List Nat
deriving DecidableEq

/-- Transaction (`wire.MsgTx`). -/
structure MsgTx where
  txIn : List TxIn
  txOut : List TxOut
  lockTime : Nat
deriving DecidableEq

instance : Inhabited MsgTx := ⟨⟨[], [], 0⟩⟩

/-- Block header (`wire.BlockHeader`): the prova header carries an explicit
height, an explicit size and a validator signature. -/
structure BlockHeader where
  version : Nat
  prevBlock : Nat
  merkleRoot : Nat
  timestamp : GoTime
  bits : Nat
  height : Nat
  size : Nat
  sig : Nat
deriving DecidableEq

/-- Block (`wire.MsgBlock`). -/
structure MsgBlock where
  header : BlockHeader
  transactions : List MsgTx
deriving DecidableEq

/-- Mining descriptor of one source-pool transaction (`mining.TxDesc`
restricted to the fields the generator reads). -/
structure TxDesc where
  tx : MsgTx
  fee : Int
deriving DecidableEq

/-! ### UTXO views

An entry records, per output index, whether that output is spent; an absent
index counts as spent (btcd stores outputs sparsely).  A view is an
association list distinguishing, like the Go map, an absent key from a key
mapped to `nil`. -/

/-- Per-transaction unspent-output record (`blockchain.UtxoEntry`):
`e.getD i true` is true when output `i` is spent or absent. -/
abbrev UtxoEntry := List Bool

/-- View of utxo entries keyed by transaction hash
(`blockchain.UtxoViewpoint.Entries`). -/
abbrev UtxoView := List (Nat × Option UtxoEntry)

/-- Test whether output `i` of an entry is spent (`UtxoEntry.IsOutputSpent`). -/
def isOutputSpent (e : UtxoEntry) (i : Nat) : Bool := e.getD i true

/-- Mark output `i` of an entry spent (`UtxoEntry.SpendOutput`). -/
def spendOutput (e : UtxoEntry) (i : Nat) : UtxoEntry := e.set i true

/-- Test whether every output of an entry is spent (`UtxoEntry.IsFullySpent`). -/
def isFullySpent (e : UtxoEntry) : Bool := e.all id

/-- Map lookup on a view: `none` when the key is absent, `some none` when the
key is present but maps to `nil`. -/
def lookupKey (v : UtxoView) (h : Nat) : Option (Option UtxoEntry) :=
  List.lookup h v

/-- Entry lookup (`UtxoViewpoint.LookupEntry`): collapses an absent key and a
`nil` entry, as dereferencing the Go map does. -/
def lookupEntry (v : UtxoView) (h : Nat) : Option UtxoEntry :=
  (lookupKey v h).join

/-- Store a (possibly `nil`) entry under a key, replacing an existing binding. -/
def viewSet (v : UtxoView) (h : Nat) (e : Option UtxoEntry) : UtxoView :=
  match v with
  | [] => [(h, e)]
  | (k, x) :: rest => if k = h then (h, e) :: rest else (k, x) :: viewSet rest h e

/-! ### External collaborators

Everything the generator consumes from outside `mining.go` — the chain
snapshot, the mempool, the script engine, the wire serializer, the hash and
signature engines, and the mining policy — is collected in one record of
arbitrary pure functions.  A theorem quantified over `Env` therefore holds
for every behaviour of the collaborators. -/

structure Env where
  /-- Hash of the best chain tip (`best.Hash`). -/
  bestHash : Nat
  /-- Height of the best chain tip (`best.Height`). -/
  bestHeight : Nat
  /-- Median time of the chain snapshot (`chainState.MedianTime`). -/
  medianTime : GoTime
  /-- Network-adjusted wall clock (`timeSource.AdjustedTime`). -/
  adjustedTime : GoTime
  /-- Policy field `BlockMaxSize`. -/
  blockMaxSize : Nat
  /-- Policy field `BlockMinSize`. -/
  blockMinSize : Nat
  /-- Policy field `BlockPrioritySize`. -/
  blockPrioritySize : Nat
  /-- Policy field `TxMinFreeFee`, in base units per kilobyte. -/
  txMinFreeFee : Int
  /-- Shared constant `mempool.MinHighPriority`.  Priorities are
  double-precision reals in the source; they are modelled as rationals. -/
  minHighPriority : Rat
  /-- Consensus constant `blockchain.MaxSigOpsPerBlock`. -/
  maxSigOpsPerBlock : Int
  /-- Wire constant `wire.MaxBlockHeaderPayload`. -/
  maxBlockHeaderPayload : Nat
  /-- Mining descriptors returned by `txSource.MiningDescs()`. -/
  sourceTxns : List TxDesc
  /-- Mempool membership test `txSource.HaveTransaction`. -/
  haveTransaction : Nat → Bool
  /-- Confirmed-chain utxo entry per transaction hash; `FetchUtxoView`
  restricts this map to the hashes a transaction references. -/
  chainView : Nat → Option UtxoEntry
  /-- Transaction hash function (`chainhash`, via `provautil.Tx.Hash`). -/
  txHash : MsgTx → Nat
  /-- Wire serialization size (`MsgTx.SerializeSize`). -/
  serializeSize : MsgTx → Nat
  /-- Subsidy schedule (`blockchain.CalcBlockSubsidy` at the active params). -/
  calcSubsidy : Nat → Int
  /-- Signature-operation count (`blockchain.CountSigOps`). -/
  countSigOps : MsgTx → Int
  /-- Pay-to-script-hash sigop count (`blockchain.CountP2SHSigOps`); `none`
  models the error return. -/
  countP2SHSigOps : MsgTx → UtxoView → Option Int
  /-- Finalization test (`blockchain.IsFinalizedTransaction`). -/
  isFinalized : MsgTx → Nat → GoTime → Bool
  /-- Priority formula (`mining.CalcPriority`). -/
  calcPriority : MsgTx → UtxoView → Nat → Rat
  /-- Script parser (`txscript.ParseScript`); `none` models a parse error. -/
  parseScript : List Nat → Option (List Nat)
  /-- Script classifier (`txscript.TypeOfScript`) on parsed opcodes. -/
  typeOfScript : List Nat → Nat
  /-- Provably-unspendable test used when adding outputs to a view. -/
  isUnspendable : List Nat → Bool
  /-- Extra conditions of `blockchain.CheckTransactionInputs` beyond
  presence and unspentness of each input in the view (amounts, maturity,
  fee sum). -/
  checkInputsExtra : MsgTx → Nat → UtxoView → Bool
  /-- Output/state validation `blockchain.CheckTransactionOutputs` against the
  (read-only) key view captured at entry. -/
  checkOutputs : MsgTx → Bool
  /-- Script validation `blockchain.ValidateTransactionScripts`. -/
  validateScripts : MsgTx → UtxoView → Bool
  /-- Address-to-script conversion (`txscript.PayToAddrScript`); `none`
  models the error return. -/
  payToAddrScript : Nat → Option (List Nat)
  /-- Next required difficulty (`chain.CalcNextRequiredDifficulty`); `none`
  models the error return. -/
  calcNextDifficulty : Option Nat
  /-- Merkle root of a transaction list: the last node of
  `blockchain.BuildMerkleTreeStore`. -/
  buildMerkleRoot : List MsgTx → Nat
  /-- Validator signature value over a header, given the private key. -/
  signFn : Nat → BlockHeader → Nat
  /-- Final static validation `chain.CheckConnectBlock`. -/
  checkConnectBlock : MsgBlock → Bool

/-! ### Derived view operations -/

/-- View of the confirmed-chain entries referenced by a transaction
(`chain.FetchUtxoView`): the transaction's own hash plus every input hash,
each bound to the chain's entry (possibly `nil`). -/
def fetchUtxoView (env : Env) (tx : MsgTx) : UtxoView :=
  (tx.txIn.map (fun i => i.prevOut.hash)).foldl
    (fun v h => viewSet v h (env.chainView h))
    (viewSet [] (env.txHash tx) (env.chainView (env.txHash tx)))

/-- One step of `mergeUtxoView`: an incoming binding replaces the existing
one only when that one is absent, `nil`, or fully spent. -/
def mergeOne (acc : UtxoView) (p : Nat × Option UtxoEntry) : UtxoView :=
  match lookupKey acc p.1 with
  | none => viewSet acc p.1 p.2
  | some none => viewSet acc p.1 p.2
  | some (some eA) => if isFullySpent eA then viewSet acc p.1 p.2 else acc

/-- Fold one view into another (`mergeUtxoView`). -/
def mergeUtxoView (a b : UtxoView) : UtxoView :=
  b.foldl mergeOne a

/-- Fresh entry for the outputs of a transaction (`UtxoViewpoint.AddTxOuts`):
provably unspendable outputs are omitted from the sparse map, which is the
same as recording them as already spent. -/
def addTxOuts (env : Env) (tx : MsgTx) : UtxoEntry :=
  tx.txOut.map (fun o => env.isUnspendable o.pkScript)

/-- One step of `spendTransaction`: mark the output referenced by one input
spent when its entry is present (`entry.SpendOutput`). -/
def spendOne (acc : UtxoView) (i : TxIn) : UtxoView :=
  match lookupEntry acc i.prevOut.hash with
  | some e => viewSet acc i.prevOut.hash (some (spendOutput e i.prevOut.index))
  | none => acc

/-- Mark the inputs of an accepted transaction spent in the view and add its
own outputs (`spendTransaction`). -/
def spendTransactionView (env : Env) (v : UtxoView) (tx : MsgTx) : UtxoView :=
  viewSet (tx.txIn.foldl spendOne v) (env.txHash tx) (some (addTxOuts env tx))

/-- Coinbase test (`blockchain.IsCoinBase`): a single input whose previous
outpoint is the zero hash with the sentinel index. -/
def isCoinBaseTx (tx : MsgTx) : Bool :=
  match tx.txIn with
  | [i] => i.prevOut.hash == 0 && i.prevOut.index == maxPrevOutIndex
  | _ => false

/-! ### Admin classification -/

/-- Recursive scan of `isAdmin` over the outputs: a parse error returns false
immediately, an administrative class returns true, otherwise the scan
continues. -/
def isAdminOuts (env : Env) : List TxOut → Bool
  | [] => false
  | o :: rest =>
    match env.parseScript o.pkScript with
    | none => false
    | some pops =>
      if env.typeOfScript pops = provaAdminTy then true else isAdminOuts env rest

/-- Admin-transaction test (`isAdmin` in `mining.go`). -/
def isAdmin (env : Env) (tx : MsgTx) : Bool := isAdminOuts env tx.txOut

/-- Predicate of the specification: an output classifies as the
administrative type when its script parses and the classifier labels it
`ProvaAdminTy`. -/
def classifiesAsAdmin (env : Env) (o : TxOut) : Bool :=
  match env.parseScript o.pkScript with
  | none => false
  | some pops => env.typeOfScript pops == provaAdminTy

/-! ### Priority items and comparators -/

/-- Candidate metadata (`txPrioItem`).  The `dependsOn` set lives outside the
item (keyed by `id`) so that the sharing of one mutable record between the
queue and the dependency tracker can be modelled by value. -/
structure TxPrioItem where
  id : Nat
  tx : MsgTx
  fee : Int
  priority : Rat
  feePerKB : Int
  isAdmin : Bool
deriving DecidableEq

instance : Inhabited TxPrioItem := ⟨⟨0, ⟨[], [], 0⟩, 0, 0, 0, false⟩⟩

/-- Comparator `txPQByPriority` applied to two items: admin first (checked on
the first argument only, as in the source), then higher priority, ties by
higher fee per kilobyte. -/
def txPQLessByPriority (a b : TxPrioItem) : Bool :=
  if a.isAdmin then true
  else if a.priority = b.priority then decide (a.feePerKB > b.feePerKB)
  else decide (a.priority > b.priority)

/-- Comparator `txPQByFee` applied to two items: admin first (checked on the
first argument only, as in the source), then higher fee per kilobyte, ties
by higher priority. -/
def txPQLessByFee (a b : TxPrioItem) : Bool :=
  if a.isAdmin then true
  else if a.feePerKB = b.feePerKB then decide (a.priority > b.priority)
  else decide (a.feePerKB > b.feePerKB)

/-- Priority queue (`txPriorityQueue`): the stored comparator is one of the
two functions above, recorded by the flag `byFee`. -/
structure TxPriorityQueue where
  byFee : Bool
  items : List TxPrioItem
deriving DecidableEq

/-- The comparator currently installed in the queue. -/
def pqLess (byFee : Bool) : TxPrioItem → TxPrioItem → Bool :=
  if byFee then txPQLessByFee else txPQLessByPriority

/-- Index form of `txPQByPriority`, as the source defines it over the queue. -/
def txPQByPriority (pq : TxPriorityQueue) (i j : Nat) : Bool :=
  txPQLessByPriority (pq.items.getD i default) (pq.items.getD j default)

/-- Index form of `txPQByFee`, as the source defines it over the queue. -/
def txPQByFee (pq : TxPriorityQueue) (i j : Nat) : Bool :=
  txPQLessByFee (pq.items.getD i default) (pq.items.getD j default)

/-! ### The heap algorithm of Go `container/heap` -/

/-- Swap two positions of the backing list (`txPriorityQueue.Swap`). -/
def lswap (l : List TxPrioItem) (i j : Nat) : List TxPrioItem :=
  (l.set i (l.getD j default)).set j (l.getD i default)

/-- Sift-down loop of `container/heap`, with explicit structural fuel.  Each
iteration moves from position `i` to a child position `j ≥ 2 * i + 1 > i`
below `n`, so at most `n - i` iterations happen; callers pass more fuel than
that and the cut-off is never reached (see `heapDownF_fuel_eq`). -/
def heapDownF (less : TxPrioItem → TxPrioItem → Bool) :
    Nat → List TxPrioItem → Nat → Nat → List TxPrioItem
  | 0, l, _, _ => l
  | fuel + 1, l, i, n =>
    if 2 * i + 1 < n then
      (fun j =>
        if less (l.getD j default) (l.getD i default) then
          heapDownF less fuel (lswap l i j) j n
        else l)
        (if 2 * i + 2 < n && less (l.getD (2 * i + 2) default) (l.getD (2 * i + 1) default)
          then 2 * i + 2 else 2 * i + 1)
    else l

/-- Sift-down of `container/heap` restricted to the first `n` positions. -/
def heapDown (less : TxPrioItem → TxPrioItem → Bool) (l : List TxPrioItem)
    (i n : Nat) : List TxPrioItem :=
  heapDownF less (n + 1) l i n

/-- Sift-up loop of `container/heap`, with explicit structural fuel.  Each
iteration moves from position `j` to the parent position `(j - 1) / 2 < j`,
so at most `j` iterations happen; callers pass more fuel than that and the
cut-off is never reached (see `heapUpF_fuel_eq`). -/
def heapUpF (less : TxPrioItem → TxPrioItem → Bool) :
    Nat → List TxPrioItem → Nat → List TxPrioItem
  | 0, l, _ => l
  | fuel + 1, l, j =>
    if (j - 1) / 2 = j ∨ less (l.getD j default) (l.getD ((j - 1) / 2) default) = false then l
    else heapUpF less fuel (lswap l ((j - 1) / 2) j) ((j - 1) / 2)

/-- Sift-up of `container/heap`. -/
def heapUp (less : TxPrioItem → TxPrioItem → Bool) (l : List TxPrioItem)
    (j : Nat) : List TxPrioItem :=
  heapUpF less (j + 1) l j

/-- Heapify (`heap.Init`). -/
def heapInit (less : TxPrioItem → TxPrioItem → Bool) (l : List TxPrioItem) :
    List TxPrioItem :=
  ((List.range (l.length / 2)).reverse).foldl
    (fun acc i => heapDown less acc i l.length) l

/-- Push (`heap.Push`): append, then sift up from the last position. -/
def heapPush (less : TxPrioItem → TxPrioItem → Bool) (l : List TxPrioItem)
    (x : TxPrioItem) : List TxPrioItem :=
  heapUp less (l ++ [x]) l.length

/-- Pop (`heap.Pop`): swap the root to the last position, sift down the first
`n - 1` positions, and detach the last element. -/
def heapPop (less : TxPrioItem → TxPrioItem → Bool) (l : List TxPrioItem) :
    Option (TxPrioItem × List TxPrioItem) :=
  match l with
  | [] => none
  | _ :: _ =>
    let n := l.length - 1
    let l1 := lswap l 0 n
    let l2 := heapDown less l1 0 n
    some (l2.getD n default, l2.take n)

/-- Comparator replacement (`SetLessFunc`): store the new comparator and
re-heapify. -/
def pqSetLess (byFee : Bool) (pq : TxPriorityQueue) : TxPriorityQueue :=
  ⟨byFee, heapInit (pqLess byFee) pq.items⟩

/-- Fresh queue under the initial comparator (`newTxPriorityQueue`). -/
def newTxPriorityQueue (sortByFee : Bool) : TxPriorityQueue :=
  pqSetLess sortByFee ⟨sortByFee, []⟩

/-! ### Candidate builder (the `mempoolLoop` of `NewBlockTemplate`)

Priority items are identified by their creation index `id`; the Go pointer
shared between the queue and the `dependers` map becomes a value plus the
central `depOn` table holding each item's remaining `dependsOn` hashes. -/

/-- State accumulated by the candidate builder. -/
structure BuildState where
  items : List TxPrioItem
  depOn : List (List Nat)
  dependers : List (Nat × List TxPrioItem)
  pq : TxPriorityQueue
  blockUtxos : UtxoView
deriving DecidableEq

/-- Record a child under one parent hash in a `dependers` bucket; like the Go
map keyed by child hash, an existing child with the same hash is
overwritten. -/
def dependersChildAdd (env : Env) (deps : List TxPrioItem) (item : TxPrioItem) :
    List TxPrioItem :=
  if deps.any (fun c => env.txHash c.tx == env.txHash item.tx) then
    deps.map (fun c => if env.txHash c.tx == env.txHash item.tx then item else c)
  else deps ++ [item]

/-- Record the dependency edge `parent → child` in the tracker, creating the
bucket when absent. -/
def dependersAdd (env : Env) (dd : List (Nat × List TxPrioItem)) (parent : Nat)
    (item : TxPrioItem) : List (Nat × List TxPrioItem) :=
  match List.lookup parent dd with
  | some _ =>
    dd.map (fun p => if p.1 = parent then (p.1, dependersChildAdd env p.2 item) else p)
  | none => dd ++ [(parent, dependersChildAdd env [] item)]

/-- Dependency scan over the inputs of one candidate.  Returns the parent
hashes recorded so far plus an abandonment flag: an input that is neither
unspent in the fetched chain view nor available in the source pool aborts
the scan (Go's `continue mempoolLoop`), but the edges recorded for earlier
inputs remain, exactly as the mutations of `dependers` persist in the
source. -/
def scanInputs (env : Env) (utxos : UtxoView) :
    List TxIn → List Nat → List Nat × Bool
  | [], acc => (acc, false)
  | txIn :: rest, acc =>
    let h := txIn.prevOut.hash
    let missing :=
      match lookupEntry utxos h with
      | none => true
      | some e => isOutputSpent e txIn.prevOut.index
    if missing then
      if env.haveTransaction h then
        scanInputs env utxos rest (if h ∈ acc then acc else acc ++ [h])
      else (acc, true)
    else scanInputs env utxos rest acc

/-- Process one mining descriptor (one iteration of the `mempoolLoop`):
reject coinbase and non-finalized transactions, fetch the chain view of the
inputs, record dependencies, compute priority / fee-per-kilobyte / admin
flag, enqueue rooted candidates and merge the fetched view.  An abandoned
candidate keeps its recorded edges but its metadata stays at the Go zero
values and nothing is merged or enqueued. -/
def buildStep (env : Env) (nextH : Nat) (b : BuildState) (d : TxDesc) : BuildState :=
  let tx := d.tx
  if isCoinBaseTx tx then b
  else if env.isFinalized tx nextH env.adjustedTime = false then b
  else
    let utxos := fetchUtxoView env tx
    let scanned := scanInputs env utxos tx.txIn []
    let parents := scanned.1
    let id := b.items.length
    if scanned.2 then
      let item : TxPrioItem := ⟨id, tx, 0, 0, 0, false⟩
      { b with
        items := b.items ++ [item]
        depOn := b.depOn ++ [parents]
        dependers := parents.foldl (fun dd h => dependersAdd env dd h item) b.dependers }
    else
      let txSize := env.serializeSize tx
      let item : TxPrioItem :=
        ⟨id, tx, d.fee, env.calcPriority tx utxos nextH,
          Int.tdiv (i64 (d.fee * 1000)) (Int.ofNat txSize), isAdmin env tx⟩
      let b1 :=
        { b with
          items := b.items ++ [item]
          depOn := b.depOn ++ [parents]
          dependers := parents.foldl (fun dd h => dependersAdd env dd h item) b.dependers }
      let b2 :=
        if parents.isEmpty then
          { b1 with pq := ⟨b1.pq.byFee, heapPush (pqLess b1.pq.byFee) b1.pq.items item⟩ }
        else b1
      { b2 with blockUtxos := mergeUtxoView b2.blockUtxos utxos }

/-- Run the candidate builder over the whole source pool. -/
def buildCandidates (env : Env) (nextH : Nat) : BuildState :=
  env.sourceTxns.foldl (buildStep env nextH)
    ⟨[], [], [], newTxPriorityQueue (env.blockPrioritySize == 0), []⟩

/-! ### The assembly loop -/

/-- State of the transaction-selection loop of `NewBlockTemplate`. -/
structure LoopState where
  items : List TxPrioItem
  depOn : List (List Nat)
  dependers : List (Nat × List TxPrioItem)
  pq : TxPriorityQueue
  blockUtxos : UtxoView
  blockTxns : List MsgTx
  blockSize : Nat
  blockSigOps : Int
  totalFees : Int
  txFees : List Int
  txSigOpCounts : List Int
  sortedByFee : Bool
deriving DecidableEq

/-- Loop state at entry: the builder results plus the coinbase transaction,
the worst-case header-plus-varint overhead, the dummy fee slot and the
coinbase sigop count. -/
def initLoopState (env : Env) (cb : MsgTx) (b : BuildState) : LoopState :=
  { items := b.items
    depOn := b.depOn
    dependers := b.dependers
    pq := b.pq
    blockUtxos := b.blockUtxos
    blockTxns := [cb]
    blockSize := ((env.maxBlockHeaderPayload + maxVarIntPayload) + u32 (env.serializeSize cb)) % W32
    blockSigOps := i64 (env.countSigOps cb)
    totalFees := 0
    txFees := [-1]
    txSigOpCounts := [i64 (env.countSigOps cb)]
    sortedByFee := env.blockPrioritySize == 0 }

/-- Modelled from the spec: `blockchain.CheckTransactionInputs` is outside
`mining.go`; per §4.5 step 6 it validates amounts, maturity, the fee sum
and double spends against the working view, which requires every referenced
output to be present and unspent in that view.  The further conditions are
the arbitrary predicate `Env.checkInputsExtra`. -/
def checkTransactionInputs (env : Env) (tx : MsgTx) (nextH : Nat) (v : UtxoView) : Bool :=
  tx.txIn.all (fun i =>
    match lookupEntry v i.prevOut.hash with
    | some e => !isOutputSpent e i.prevOut.index
    | none => false)
  && env.checkInputsExtra tx nextH v

/-- Promotion of one dependent after an acceptance: erase the accepted hash
from the child's remaining dependencies and push the child once the set
empties. -/
def promoteOne (env : Env) (h : Nat) (s : LoopState) (it : TxPrioItem) : LoopState :=
  if ((s.depOn.getD it.id []).erase h).isEmpty then
    { s with
      depOn := s.depOn.set it.id ((s.depOn.getD it.id []).erase h)
      pq := ⟨s.pq.byFee, heapPush (pqLess s.pq.byFee) s.pq.items it⟩ }
  else { s with depOn := s.depOn.set it.id ((s.depOn.getD it.id []).erase h) }

/-- Promotion of every dependent recorded under the accepted hash. -/
def promoteDeps (env : Env) (h : Nat) (deps : List TxPrioItem) (s : LoopState) :
    LoopState :=
  deps.foldl (promoteOne env h) s

/-- Validation and acceptance of a popped candidate (steps 6-8 of the loop
body plus the acceptance updates): any failing check skips the candidate,
otherwise its inputs are spent in the working view, the transaction and its
accounting are appended, and newly rooted children are promoted. -/
def acceptTx (env : Env) (nextH : Nat) (s : LoopState) (item : TxPrioItem)
    (txSize : Nat) (numSigOps : Int) : LoopState :=
  if checkTransactionInputs env item.tx nextH s.blockUtxos = false then s
  else if env.checkOutputs item.tx = false then s
  else if env.validateScripts item.tx s.blockUtxos = false then s
  else
    let h := env.txHash item.tx
    let deps := (List.lookup h s.dependers).getD []
    let s1 :=
      { s with
        blockUtxos := spendTransactionView env s.blockUtxos item.tx
        blockTxns := s.blockTxns ++ [item.tx]
        blockSize := (s.blockSize + txSize) % W32
        blockSigOps := add64 s.blockSigOps numSigOps
        totalFees := add64 s.totalFees item.fee
        txFees := s.txFees ++ [item.fee]
        txSigOpCounts := s.txSigOpCounts ++ [numSigOps] }
    promoteDeps env h deps s1

/-- One iteration of the assembly loop: pop the top candidate and apply, in
source order, the size gate, the two sigop gates, the free-transaction
cutoff, the priority-to-fee transition with its re-push, and the
validation/acceptance steps. -/
def assembleStep (env : Env) (nextH : Nat) (s : LoopState) : LoopState :=
  match heapPop (pqLess s.pq.byFee) s.pq.items with
  | none => s
  | some (item, rest) =>
    let s0 := { s with pq := ⟨s.pq.byFee, rest⟩ }
    let txSize := u32 (env.serializeSize item.tx)
    let bpts := (s0.blockSize + txSize) % W32
    if bpts < s0.blockSize ∨ env.blockMaxSize ≤ bpts then s0
    else
      let nso := i64 (env.countSigOps item.tx)
      if add64 s0.blockSigOps nso < s0.blockSigOps ∨
          env.maxSigOpsPerBlock < add64 s0.blockSigOps nso then s0
      else
        match env.countP2SHSigOps item.tx s0.blockUtxos with
        | none => s0
        | some p2sh =>
          let nso2 := add64 nso (i64 p2sh)
          if add64 s0.blockSigOps nso2 < s0.blockSigOps ∨
              env.maxSigOpsPerBlock < add64 s0.blockSigOps nso2 then s0
          else if s0.sortedByFee = true ∧ item.feePerKB < env.txMinFreeFee ∧
              env.blockMinSize ≤ bpts then s0
          else if s0.sortedByFee = false ∧
              (env.blockPrioritySize ≤ bpts ∨ item.priority ≤ env.minHighPriority) then
            let s1 := { s0 with sortedByFee := true, pq := pqSetLess true s0.pq }
            if env.blockPrioritySize < bpts ∨ item.priority < env.minHighPriority then
              { s1 with pq := ⟨s1.pq.byFee, heapPush (pqLess s1.pq.byFee) s1.pq.items item⟩ }
            else acceptTx env nextH s1 item txSize nso2
          else acceptTx env nextH s0 item txSize nso2

/-- Fuel-based recursion for the `for priorityQueue.Len() > 0` loop. -/
def assembleLoop (env : Env) (nextH : Nat) : Nat → LoopState → LoopState
  | 0, s => s
  | fuel + 1, s =>
    if s.pq.items.isEmpty then s
    else assembleLoop env nextH fuel (assembleStep env nextH s)

/-! ### Coinbase construction and finalization -/

/-- Script produced by `standardCoinbaseScript`: the builder pushes the seven
`"/prova/"` bytes as data, which serializes as a direct-push opcode. -/
def standardCoinbaseScript : List Nat := 7 :: coinbaseFlagsBytes

/-- Coinbase factory (`createCoinbaseTx`): zero previous outpoint with the
sentinel index, the flags push as signature script, maximum sequence, one
output paying the subsidy at the next height either to the given address or
to the single `OP_TRUE` opcode, and the next height as lock time. -/
def createCoinbaseTx (env : Env) (nextH : Nat) (payToAddr : Option Nat) :
    Option MsgTx :=
  match (match payToAddr with
    | some a => env.payToAddrScript a
    | none => some [opTrue]) with
  | none => none
  | some pkScript =>
    some
      { txIn := [⟨⟨0, maxPrevOutIndex⟩, standardCoinbaseScript, maxTxInSequenceNum⟩]
        txOut := [⟨env.calcSubsidy nextH, pkScript⟩]
        lockTime := nextH }

/-- Minimum allowed timestamp (`minimumMedianTime`): one second after the
median time of the snapshot. -/
def minimumMedianTime (env : Env) : GoTime := env.medianTime.addSec 1

/-- Header timestamp computation (`medianAdjustedTime`): the adjusted time,
raised to the minimum when it is earlier. -/
def medianAdjustedTime (env : Env) : GoTime :=
  if env.adjustedTime.before (minimumMedianTime env) then minimumMedianTime env
  else env.adjustedTime

/-- Modelled from the spec: `wire.BlockHeader.Sign` is outside `mining.go`;
per §4.6 step 8 it signs the header contents with the validator key and
stores the signature in the header, modifying no other field. -/
def signHeader (env : Env) (key : Nat) (h : BlockHeader) : BlockHeader :=
  { h with sig := env.signFn key { h with sig := 0 } }

/-- Value of the first output of the coinbase. -/
def coinbaseValue (cb : MsgTx) : Int := (cb.txOut.getD 0 ⟨0, []⟩).value

/-- Script length of the first output of the coinbase. -/
def coinbaseScriptLen (cb : MsgTx) : Nat := (cb.txOut.getD 0 ⟨0, []⟩).pkScript.length

/-- Replace the value of the first output of the coinbase. -/
def setCoinbaseValue (cb : MsgTx) (v : Int) : MsgTx :=
  { cb with txOut := match cb.txOut with
    | o :: rest => { o with value := v } :: rest
    | [] => [] }

/-- Replace the script of the first output of the coinbase. -/
def setCoinbaseScript (cb : MsgTx) (s : List Nat) : MsgTx :=
  { cb with txOut := match cb.txOut with
    | o :: rest => { o with pkScript := s } :: rest
    | [] => [] }

/-- Null-script shrink of a zero-valued coinbase: swap the output script for
the single `OP_RETURN` opcode and decrease the running block size by the
script length difference (computed in Go int arithmetic and converted to
`uint32` before the subtraction). -/
def applyNullShrink (cb : MsgTx) (blockSize : Nat) : MsgTx × Nat :=
  if coinbaseValue cb = 0 then
    (setCoinbaseScript cb [opReturn],
      sub32 blockSize (u32ofInt (((coinbaseScriptLen cb : Int)) - 1)))
  else (cb, blockSize)

/-- Block template (`BlockTemplate`). -/
structure BlockTemplate where
  block : MsgBlock
  fees : List Int
  sigOpCounts : List Int
  height : Nat
  validPayAddress : Bool
deriving DecidableEq

/-- Block size after the loop, with the worst-case varint reservation
replaced by the actual varint size for the final transaction count. -/
def correctedBlockSize (s : LoopState) : Nat :=
  sub32 s.blockSize (maxVarIntPayload - varIntSerializeSize s.blockTxns.length)

/-- Coinbase of the loop state with the collected fees added to its output
value (`coinbaseTx.MsgTx().TxOut[0].Value += totalFees`). -/
def settledCoinbase (s : LoopState) : MsgTx :=
  setCoinbaseValue (s.blockTxns.headD default)
    (add64 (coinbaseValue (s.blockTxns.headD default)) s.totalFees)

/-- Fee list with the coinbase slot settled (`txFees[0] = -totalFees`). -/
def settledFees (s : LoopState) : List Int := s.txFees.set 0 (neg64 s.totalFees)

/-- Settled coinbase and corrected block size after the null-script shrink. -/
def shrunkPair (s : LoopState) : MsgTx × Nat :=
  applyNullShrink (settledCoinbase s) (correctedBlockSize s)

/-- Transaction list of the final block: the (possibly shrunk) settled
coinbase — which is the same object as `blockTxns[0]` in the source —
followed by the accepted transactions. -/
def finalTxns (s : LoopState) : List MsgTx := (shrunkPair s).1 :: s.blockTxns.tail

/-- Signed header of the final block. -/
def finalHeader (env : Env) (nextH : Nat) (key : Nat) (s : LoopState) (bits : Nat) :
    BlockHeader :=
  signHeader env key
    ⟨generatedBlockVersion, env.bestHash, env.buildMerkleRoot (finalTxns s),
      medianAdjustedTime env, bits, nextH, (shrunkPair s).2, 0⟩

/-- The assembled block. -/
def finalBlock (env : Env) (nextH : Nat) (key : Nat) (s : LoopState) (bits : Nat) :
    MsgBlock :=
  ⟨finalHeader env nextH key s bits, finalTxns s⟩

/-- Finalization after the loop: correct the varint reservation, add the
collected fees to the coinbase value, settle the fee slot, apply the
null-script shrink, compute timestamp and difficulty, build the Merkle
root, assemble and sign the header, and run the final full-block check. -/
def finalizeTemplate (env : Env) (nextH : Nat) (payToAddr : Option Nat) (key : Nat)
    (s : LoopState) : Option BlockTemplate :=
  match env.calcNextDifficulty with
  | none => none
  | some bits =>
    if env.checkConnectBlock (finalBlock env nextH key s bits) then
      some ⟨finalBlock env nextH key s bits, settledFees s, s.txSigOpCounts, nextH,
        payToAddr.isSome⟩
    else none

/-- The height the template connects at: one above the snapshot height, in
`uint32` arithmetic. -/
def nextBlockHeight (env : Env) : Nat := u32 (env.bestHeight + 1)

/-- Fuel passed to the assembly loop.  Every candidate is pushed at most once
by the builder or once by promotion, plus at most one re-push at the
priority-to-fee transition, so one unit per source transaction plus two is
enough for the queue to drain (see the termination theorem). -/
def loopFuel (env : Env) : Nat := env.sourceTxns.length + 2

/-- State of the assembly loop at exit, for a given coinbase. -/
def templateState (env : Env) (cb : MsgTx) : LoopState :=
  assembleLoop env (nextBlockHeight env) (loopFuel env)
    (initLoopState env cb (buildCandidates env (nextBlockHeight env)))

/-- Top-level template generation (`NewBlockTemplate`). -/
def NewBlockTemplate (env : Env) (payToAddr : Option Nat) (key : Nat) :
    Option BlockTemplate :=
  match createCoinbaseTx env (nextBlockHeight env) payToAddr with
  | none => none
  | some cb =>
    finalizeTemplate env (nextBlockHeight env) payToAddr key (templateState env cb)

/-- Block produced by the template refresher: the same block with a
recomputed header timestamp and a fresh header signature. -/
def refreshedBlock (env : Env) (blk : MsgBlock) (key : Nat) : MsgBlock :=
  { blk with header := signHeader env key { blk.header with timestamp := medianAdjustedTime env } }

/-- Template refresher (`UpdateBlockTime`): recompute the timestamp, re-sign
the header, and return `nil` error unconditionally. -/
def UpdateBlockTime (env : Env) (blk : MsgBlock) (key : Nat) : Except Unit MsgBlock :=
  .ok (refreshedBlock env blk key)

/-! ### Specification-side definitions (for refinement comparisons) -/

/-- Modelled from the spec: truncation of a wall-clock value to a whole
second, as §4.6 step 4 prescribes for the adjusted time. -/
def truncToSecond (t : GoTime) : GoTime := ⟨t.sec, 0⟩

/-- Modelled from the spec: the header timestamp of §4.6 step 4, the maximum
of the truncated adjusted time and the median time plus one second. -/
def specHeaderTimestamp (env : Env) : GoTime :=
  if (truncToSecond env.adjustedTime).before (env.medianTime.addSec 1) then
    env.medianTime.addSec 1
  else truncToSecond env.adjustedTime

/-! ### Derived notions used by the statements -/

/-- Sum of a fee list in wrapping `int64` arithmetic, exactly as the
accumulator `totalFees` computes it. -/
def i64sum (l : List Int) : Int := l.foldl add64 0

/-- Characterization of a loop iteration that skips or re-pushes its popped
candidate: every field except the queue, the dependency tables and the
comparator flag is unchanged. -/
def StepSkip (s a : LoopState) : Prop :=
  a.blockUtxos = s.blockUtxos ∧ a.blockTxns = s.blockTxns ∧
  a.blockSize = s.blockSize ∧ a.blockSigOps = s.blockSigOps ∧
  a.totalFees = s.totalFees ∧ a.txFees = s.txFees ∧
  a.txSigOpCounts = s.txSigOpCounts ∧ a.items = s.items ∧
  a.depOn = s.depOn ∧ a.dependers = s.dependers

/-- Characterization of a loop iteration that accepts its popped candidate:
the candidate passed the size gate and the input validation against the
working view, and the accounting fields grow exactly as the acceptance code
prescribes. -/
def StepAccept (env : Env) (nH : Nat) (s a : LoopState) : Prop :=
  ∃ item : TxPrioItem, ∃ nso : Int,
    checkTransactionInputs env item.tx nH s.blockUtxos = true ∧
    (s.blockSize + u32 (env.serializeSize item.tx)) % W32 < env.blockMaxSize ∧
    s.blockSize ≤ (s.blockSize + u32 (env.serializeSize item.tx)) % W32 ∧
    a.blockUtxos = spendTransactionView env s.blockUtxos item.tx ∧
    a.blockTxns = s.blockTxns ++ [item.tx] ∧
    a.blockSize = (s.blockSize + u32 (env.serializeSize item.tx)) % W32 ∧
    a.blockSigOps = add64 s.blockSigOps nso ∧
    a.totalFees = add64 s.totalFees item.fee ∧
    a.txFees = s.txFees ++ [item.fee] ∧
    a.txSigOpCounts = s.txSigOpCounts ++ [nso] ∧
    a.items = s.items

/-- Provenance invariant of the working view: every present (non-`nil`)
entry belongs to a transaction of the confirmed chain view or to an already
accepted transaction. -/
def viewProvenance (env : Env) (s : LoopState) : Prop :=
  ∀ h e, lookupEntry s.blockUtxos h = some e →
    env.chainView h ≠ none ∨ ∃ tx ∈ s.blockTxns.tail, env.txHash tx = h

/-- Ordering invariant of the accepted list: every input of every accepted
non-coinbase transaction references a transaction of the confirmed chain
view or an accepted transaction at a strictly earlier position. -/
def ancestorOrdering (env : Env) (s : LoopState) : Prop :=
  ∀ k, 1 ≤ k → k < s.blockTxns.length →
    ∀ i ∈ (s.blockTxns.getD k default).txIn,
      env.chainView i.prevOut.hash ≠ none ∨
      ∃ j, 1 ≤ j ∧ j < k ∧ env.txHash (s.blockTxns.getD j default) = i.prevOut.hash

/-- Association lists whose bindings all agree with the chain view; this is
the shape of every view the candidate builder manipulates. -/
def chainPairs (env : Env) (v : UtxoView) : Prop :=
  ∀ p ∈ v, p.2 = env.chainView p.1

/-! ### Termination bookkeeping (C9)

The loop measure counts the queued candidates, the parked candidates whose
dependency set is still nonempty, and one unit for the pending
priority-to-fee transition.  The invariant states the facts that make each
iteration decrease the measure: queue members are settled candidates whose
hash is not yet accepted, tracker children still owe the bucket hash unless
it was accepted, and all candidate hashes are distinct. -/

/-- Hashes of the transactions accepted so far (everything after the
coinbase). -/
def acceptedHashes (env : Env) (s : LoopState) : List Nat :=
  s.blockTxns.tail.map env.txHash

/-- A candidate value is good when it is the record stored at its own id. -/
def goodItem (env : Env) (s : LoopState) (it : TxPrioItem) : Prop :=
  it.id < s.items.length ∧ s.items.getD it.id default = it

/-- Number of parked candidates: ids whose remaining dependency set is
nonempty. -/
def parkedCount (s : LoopState) : Nat :=
  s.depOn.countP (fun d => !d.isEmpty)

/-- Termination measure of the assembly loop. -/
def loopMeasure (s : LoopState) : Nat :=
  s.pq.items.length + parkedCount s + (if s.sortedByFee then 0 else 1)

/-- Invariant of the assembly loop that drives the termination argument. -/
def QInv (env : Env) (s : LoopState) : Prop :=
  s.blockTxns ≠ [] ∧
  s.depOn.length = s.items.length ∧
  (s.items.map (fun it => env.txHash it.tx)).Nodup ∧
  (s.pq.items.map (fun it => env.txHash it.tx)).Nodup ∧
  (∀ it ∈ s.pq.items, goodItem env s it ∧ s.depOn.getD it.id [] = [] ∧
    env.txHash it.tx ∉ acceptedHashes env s) ∧
  (∀ p ∈ s.dependers, ∀ c ∈ p.2, goodItem env s c ∧
    (p.1 ∈ s.depOn.getD c.id [] ∨ p.1 ∈ acceptedHashes env s)) ∧
  (∀ p ∈ s.dependers, (p.2.map (fun c => env.txHash c.tx)).Nodup) ∧
  (∀ id, s.depOn.getD id [] ≠ [] →
    env.txHash ((s.items.getD id default).tx) ∉ acceptedHashes env s)

/-- Invariant of the candidate builder, the loop invariant's counterpart over
`BuildState` (there is no accepted transaction yet, so the accepted-hash
conditions collapse). -/
def BInv (env : Env) (b : BuildState) : Prop :=
  b.depOn.length = b.items.length ∧
  (b.items.map (fun it => env.txHash it.tx)).Nodup ∧
  (b.pq.items.map (fun it => env.txHash it.tx)).Nodup ∧
  (∀ it ∈ b.pq.items, (it.id < b.items.length ∧ b.items.getD it.id default = it) ∧
    b.depOn.getD it.id [] = []) ∧
  (∀ p ∈ b.dependers, ∀ c ∈ p.2, (c.id < b.items.length ∧
    b.items.getD c.id default = c) ∧ p.1 ∈ b.depOn.getD c.id []) ∧
  (∀ p ∈ b.dependers, (p.2.map (fun c => env.txHash c.tx)).Nodup) ∧
  b.pq.items.length + b.depOn.countP (fun d => !d.isEmpty) ≤ b.items.length

/-! ### Concrete fixtures for witnesses and counterexamples -/

/-- Chain/policy/collaborator fixture with an empty source pool, subsidy 50,
all validations passing and whole-second clocks.  The hash of a transaction
is read off its lock time, so fixture transactions are hashed by
construction. -/
def baseEnv : Env where
  bestHash := 7
  bestHeight := 99
  medianTime := ⟨0, 0⟩
  adjustedTime := ⟨100, 0⟩
  blockMaxSize := 1000000
  blockMinSize := 0
  blockPrioritySize := 0
  txMinFreeFee := 0
  minHighPriority := 0
  maxSigOpsPerBlock := 20000
  maxBlockHeaderPayload := 100
  sourceTxns := []
  haveTransaction := fun _ => false
  chainView := fun _ => none
  txHash := fun tx => tx.lockTime
  serializeSize := fun tx => if tx.lockTime = 100 then 100 else 50
  calcSubsidy := fun _ => 50
  countSigOps := fun _ => 1
  countP2SHSigOps := fun _ _ => some 0
  isFinalized := fun _ _ _ => true
  calcPriority := fun _ _ _ => 0
  parseScript := fun s => some s
  typeOfScript := fun _ => 0
  isUnspendable := fun _ => false
  checkInputsExtra := fun _ _ _ => true
  checkOutputs := fun _ => true
  validateScripts := fun _ _ => true
  payToAddrScript := fun _ => some [1, 2]
  calcNextDifficulty := some 9
  buildMerkleRoot := fun _ => 3
  signFn := fun _ _ => 4
  checkConnectBlock := fun _ => true

/-- Fixture transaction with lock time (hence hash) 1, spending output 0 of
chain transaction 5. -/
def txSpend5 : MsgTx := ⟨[⟨⟨5, 0⟩, [], 0⟩], [⟨10, [9]⟩], 1⟩

/-- Environment with one 40-base-unit-fee candidate spending a confirmed
output; the candidate is also advertised through `haveTransaction`. -/
def feeEnv : Env :=
  { baseEnv with
    sourceTxns := [⟨txSpend5, 40⟩]
    chainView := fun h => if h = 5 then some [false] else none
    haveTransaction := fun h => h == 5 }

/-- Environment of the size-gate counterexample: the same single candidate,
with `BlockMaxSize` chosen so that the candidate fills the block exactly
(initial size 209 plus candidate size 50). -/
def fillEnv : Env := { feeEnv with blockMaxSize := 259 }

/-- Environment of the timestamp counterexample: the adjusted time carries a
nanosecond remainder. -/
def nsecEnv : Env := { baseEnv with adjustedTime := ⟨100, 5⟩ }

/-- Environment of the admin-flag counterexample: script `[0]` fails to
parse, script `[1]` parses and classifies as administrative. -/
def adminEnv : Env :=
  { baseEnv with
    parseScript := fun s => if s = [0] then none else some s
    typeOfScript := fun s => if s = [1] then 1 else 0 }

/-- Transaction with an unparsable first output script followed by an
administrative output script, under `adminEnv`. -/
def adminTx : MsgTx := ⟨[], [⟨1, [0]⟩, ⟨1, [1]⟩], 0⟩

/-- Environment with zero subsidy, so that a fee-free coinbase has value
zero and the null-script shrink applies. -/
def zeroSubEnv : Env := { baseEnv with calcSubsidy := fun _ => 0 }

/-- Queue fixture of the comparator counterexample: an administrative item
with the lowest keys followed by a non-administrative item with the
highest keys. -/
def pqFixture : TxPriorityQueue :=
  ⟨false, [⟨0, ⟨[], [], 0⟩, 0, 0, 0, true⟩, ⟨1, ⟨[], [], 1⟩, 0, 5, 5, false⟩]⟩

/-- Block fixture for the refresher theorems. -/
def fixtureBlock : MsgBlock := ⟨⟨1, 2, 3, ⟨4, 0⟩, 5, 6, 7, 8⟩, [⟨[], [], 0⟩]⟩

instance : Inhabited BlockTemplate :=
  ⟨⟨⟨⟨0, 0, 0, ⟨0, 0⟩, 0, 0, 0, 0⟩, []⟩, [], [], 0, false⟩⟩

/-- Template produced by the base fixture, used to instantiate theorems with
hypotheses. -/
def baseTemplate : BlockTemplate := (NewBlockTemplate baseEnv none 1).getD default

/-- Template produced by the single-fee fixture. -/
def feeTemplate : BlockTemplate := (NewBlockTemplate feeEnv none 1).getD default

/-- Coinbase transaction produced by `createCoinbaseTx` under the fee
fixture (subsidy 50, height 100, no payout address). -/
def feeCb : MsgTx :=
  ⟨[⟨⟨0, maxPrevOutIndex⟩, standardCoinbaseScript, maxTxInSequenceNum⟩],
    [⟨50, [opTrue]⟩], 100⟩

/-! ### Fuel sufficiency of the sift loops -/

theorem heapUpF_fuel_eq (less : TxPrioItem → TxPrioItem → Bool) :
    ∀ (f1 : Nat) (f2 : Nat) (l : List TxPrioItem) (j : Nat), j < f1 → j < f2 →
      heapUpF less f1 l j = heapUpF less f2 l j := by
  intro f1
  induction f1 with
  | zero => intro f2 l j h1; omega
  | succ n ih =>
    intro f2 l j h1 h2
    cases f2 with
    | zero => omega
    | succ m =>
      unfold heapUpF
      split
      · rfl
      · rename_i hcond
        have hij : (j - 1) / 2 < j := by
          rcases Nat.eq_zero_or_pos j with hj | hj
          · exfalso
            apply hcond
            left
            omega
          · omega
        exact ih m (lswap l ((j - 1) / 2) j) ((j - 1) / 2) (by omega) (by omega)

theorem heapDownF_fuel_eq (less : TxPrioItem → TxPrioItem → Bool) :
    ∀ (f1 : Nat) (f2 : Nat) (l : List TxPrioItem) (i n : Nat), n - i < f1 → n - i < f2 →
      heapDownF less f1 l i n = heapDownF less f2 l i n := by
  intro f1
  induction f1 with
  | zero => intro f2 l i n h1; omega
  | succ k ih =>
    intro f2 l i n h1 h2
    cases f2 with
    | zero => omega
    | succ m =>
      unfold heapDownF
      split
      · rename_i hlt
        dsimp only
        split
        · split
          · rename_i hcase _
            exact ih m _ (2 * i + 2) n (by omega) (by omega)
          · rfl
        · split
          · exact ih m _ (2 * i + 1) n (by omega) (by omega)
          · rfl
      · rfl

/-! ### Arithmetic lemmas -/

theorem i64_eq_of_range (x : Int) (h1 : -HALF64 ≤ x) (h2 : x < HALF64) : i64 x = x := by
  unfold i64 HALF64 W64 at *
  omega

theorem add64_eq (a b : Int) (h1 : -HALF64 ≤ a + b) (h2 : a + b < HALF64) :
    add64 a b = a + b :=
  i64_eq_of_range _ h1 h2

theorem neg64_eq (a : Int) (h1 : -HALF64 ≤ -a) (h2 : -a < HALF64) : neg64 a = -a :=
  i64_eq_of_range _ h1 h2

theorem i64sum_append_one (l : List Int) (x : Int) :
    i64sum (l ++ [x]) = add64 (i64sum l) x := by
  unfold i64sum
  rw [List.foldl_append]
  rfl

theorem foldl_add64_eq_sum (l : List Int) :
    ∀ acc : Int, 0 ≤ acc → (∀ f ∈ l, 0 ≤ f) → acc + l.sum < HALF64 →
      l.foldl add64 acc = acc + l.sum := by
  induction l with
  | nil => intro acc _ _ _; simp
  | cons x xs ih =>
    intro acc hacc hall hbound
    have hx : 0 ≤ x := hall x (by simp)
    have hxs : ∀ f ∈ xs, 0 ≤ f := fun f hf => hall f (by simp [hf])
    have hsumnn : 0 ≤ xs.sum := List.sum_nonneg hxs
    rw [List.sum_cons] at hbound
    rw [List.sum_cons, List.foldl_cons,
      add64_eq acc x (by omega) (by omega),
      ih (acc + x) (by omega) hxs (by omega)]
    omega

theorem i64sum_eq_sum (l : List Int) (hall : ∀ f ∈ l, 0 ≤ f) (hb : l.sum < HALF64) :
    i64sum l = l.sum := by
  have := foldl_add64_eq_sum l 0 le_rfl hall (by omega)
  unfold i64sum
  omega

theorem sub32_eq (a b : Nat) (hb : b ≤ a) (ha : a < W32) : sub32 a b = a - b := by
  unfold sub32 W32 at *
  omega

/-! ### Time lemmas -/

theorem before_irrefl (t : GoTime) : t.before t = false := by
  simp [GoTime.before]

theorem medianAdjustedTime_not_before_min (env : Env) :
    (medianAdjustedTime env).before (minimumMedianTime env) = false := by
  unfold medianAdjustedTime
  split
  · exact before_irrefl _
  · simp_all

/-! ### Decomposition of a successful template generation -/

theorem finalizeTemplate_some {env : Env} {nH : Nat} {p : Option Nat} {key : Nat}
    {s : LoopState} {t : BlockTemplate}
    (h : finalizeTemplate env nH p key s = some t) :
    ∃ bits, env.calcNextDifficulty = some bits ∧
      env.checkConnectBlock (finalBlock env nH key s bits) = true ∧
      t = ⟨finalBlock env nH key s bits, settledFees s, s.txSigOpCounts, nH, p.isSome⟩ := by
  unfold finalizeTemplate at h
  split at h
  · simp at h
  · rename_i bits heq
    split at h
    · rename_i hcc
      exact ⟨bits, heq, hcc, ((Option.some.injEq _ _).mp h).symm⟩
    · simp at h

theorem NewBlockTemplate_some {env : Env} {p : Option Nat} {key : Nat}
    {t : BlockTemplate} (h : NewBlockTemplate env p key = some t) :
    ∃ cb bits, createCoinbaseTx env (nextBlockHeight env) p = some cb ∧
      env.calcNextDifficulty = some bits ∧
      t = ⟨finalBlock env (nextBlockHeight env) key (templateState env cb) bits,
        settledFees (templateState env cb), (templateState env cb).txSigOpCounts,
        nextBlockHeight env, p.isSome⟩ := by
  unfold NewBlockTemplate at h
  split at h
  · simp at h
  · rename_i cb hc
    obtain ⟨bits, h1, _, h3⟩ := finalizeTemplate_some h
    exact ⟨cb, bits, hc, h1, h3⟩

/-! ### Shape of one assembly-loop iteration -/

theorem promoteOne_fields (env : Env) (hh : Nat) (s : LoopState) (it : TxPrioItem) :
    (promoteOne env hh s it).blockUtxos = s.blockUtxos ∧
    (promoteOne env hh s it).blockTxns = s.blockTxns ∧
    (promoteOne env hh s it).blockSize = s.blockSize ∧
    (promoteOne env hh s it).blockSigOps = s.blockSigOps ∧
    (promoteOne env hh s it).totalFees = s.totalFees ∧
    (promoteOne env hh s it).txFees = s.txFees ∧
    (promoteOne env hh s it).txSigOpCounts = s.txSigOpCounts ∧
    (promoteOne env hh s it).items = s.items ∧
    (promoteOne env hh s it).dependers = s.dependers ∧
    (promoteOne env hh s it).sortedByFee = s.sortedByFee := by
  unfold promoteOne
  split <;> exact ⟨rfl, rfl, rfl, rfl, rfl, rfl, rfl, rfl, rfl, rfl⟩

theorem promoteDeps_fields (env : Env) (hh : Nat) (deps : List TxPrioItem) :
    ∀ s : LoopState,
      (promoteDeps env hh deps s).blockUtxos = s.blockUtxos ∧
      (promoteDeps env hh deps s).blockTxns = s.blockTxns ∧
      (promoteDeps env hh deps s).blockSize = s.blockSize ∧
      (promoteDeps env hh deps s).blockSigOps = s.blockSigOps ∧
      (promoteDeps env hh deps s).totalFees = s.totalFees ∧
      (promoteDeps env hh deps s).txFees = s.txFees ∧
      (promoteDeps env hh deps s).txSigOpCounts = s.txSigOpCounts ∧
      (promoteDeps env hh deps s).items = s.items ∧
      (promoteDeps env hh deps s).dependers = s.dependers ∧
      (promoteDeps env hh deps s).sortedByFee = s.sortedByFee := by
  induction deps with
  | nil => intro s; exact ⟨rfl, rfl, rfl, rfl, rfl, rfl, rfl, rfl, rfl, rfl⟩
  | cons d ds ih =>
    intro s
    have hfold : promoteDeps env hh (d :: ds) s = promoteDeps env hh ds (promoteOne env hh s d) := by
      unfold promoteDeps
      rw [List.foldl_cons]
    rw [hfold]
    obtain ⟨a1, a2, a3, a4, a5, a6, a7, a8, a9, a10⟩ := ih (promoteOne env hh s d)
    obtain ⟨b1, b2, b3, b4, b5, b6, b7, b8, b9, b10⟩ := promoteOne_fields env hh s d
    exact ⟨a1.trans b1, a2.trans b2, a3.trans b3, a4.trans b4, a5.trans b5,
      a6.trans b6, a7.trans b7, a8.trans b8, a9.trans b9, a10.trans b10⟩

theorem acceptTx_cases (env : Env) (nH : Nat) (s : LoopState) (item : TxPrioItem)
    (tsz : Nat) (nso : Int) :
    acceptTx env nH s item tsz nso = s ∨
    (checkTransactionInputs env item.tx nH s.blockUtxos = true ∧
      (acceptTx env nH s item tsz nso).blockUtxos = spendTransactionView env s.blockUtxos item.tx ∧
      (acceptTx env nH s item tsz nso).blockTxns = s.blockTxns ++ [item.tx] ∧
      (acceptTx env nH s item tsz nso).blockSize = (s.blockSize + tsz) % W32 ∧
      (acceptTx env nH s item tsz nso).blockSigOps = add64 s.blockSigOps nso ∧
      (acceptTx env nH s item tsz nso).totalFees = add64 s.totalFees item.fee ∧
      (acceptTx env nH s item tsz nso).txFees = s.txFees ++ [item.fee] ∧
      (acceptTx env nH s item tsz nso).txSigOpCounts = s.txSigOpCounts ++ [nso] ∧
      (acceptTx env nH s item tsz nso).items = s.items ∧
      (acceptTx env nH s item tsz nso).sortedByFee = s.sortedByFee) := by
  unfold acceptTx
  split_ifs with h1 h2 h3
  · left; rfl
  · left; rfl
  · left; rfl
  · right
    have hcti : checkTransactionInputs env item.tx nH s.blockUtxos = true := by
      cases hb : checkTransactionInputs env item.tx nH s.blockUtxos
      · exact absurd hb h1
      · rfl
    obtain ⟨a1, a2, a3, a4, a5, a6, a7, a8, a9, a10⟩ :=
      promoteDeps_fields env (env.txHash item.tx)
        ((List.lookup (env.txHash item.tx) s.dependers).getD [])
        { s with
          blockUtxos := spendTransactionView env s.blockUtxos item.tx
          blockTxns := s.blockTxns ++ [item.tx]
          blockSize := (s.blockSize + tsz) % W32
          blockSigOps := add64 s.blockSigOps nso
          totalFees := add64 s.totalFees item.fee
          txFees := s.txFees ++ [item.fee]
          txSigOpCounts := s.txSigOpCounts ++ [nso] }
    exact ⟨hcti, a1, a2, a3, a4, a5, a6, a7, a8, a10⟩

theorem StepSkip_pq (s : LoopState) (q : TxPriorityQueue) :
    StepSkip s { s with pq := q } :=
  ⟨rfl, rfl, rfl, rfl, rfl, rfl, rfl, rfl, rfl, rfl⟩

theorem StepSkip_pq_flag (s : LoopState) (q : TxPriorityQueue) (b : Bool) :
    StepSkip s { s with pq := q, sortedByFee := b } :=
  ⟨rfl, rfl, rfl, rfl, rfl, rfl, rfl, rfl, rfl, rfl⟩

theorem assembleStep_skip_or_accept (env : Env) (nH : Nat) (s : LoopState) :
    StepSkip s (assembleStep env nH s) ∨ StepAccept env nH s (assembleStep env nH s) := by
  unfold assembleStep
  split
  · exact Or.inl ⟨rfl, rfl, rfl, rfl, rfl, rfl, rfl, rfl, rfl, rfl⟩
  · rename_i item rest heq
    dsimp only
    split
    · exact Or.inl (StepSkip_pq s _)
    · rename_i hsize
      split
      · exact Or.inl (StepSkip_pq s _)
      · split
        · exact Or.inl (StepSkip_pq s _)
        · rename_i p2sh hps
          split
          · exact Or.inl (StepSkip_pq s _)
          · split
            · exact Or.inl (StepSkip_pq s _)
            · split
              · split
                · exact Or.inl (StepSkip_pq_flag s _ _)
                · rcases acceptTx_cases env nH
                      { s with sortedByFee := true, pq := pqSetLess true ⟨s.pq.byFee, rest⟩ }
                      item (u32 (env.serializeSize item.tx))
                      (add64 (i64 (env.countSigOps item.tx)) (i64 p2sh)) with
                    hskip | ⟨hcti, h1, h2, h3, h4, h5, h6, h7, h8, _⟩
                  · rw [hskip]
                    exact Or.inl (StepSkip_pq_flag s _ _)
                  · right
                    push_neg at hsize
                    exact ⟨item, add64 (i64 (env.countSigOps item.tx)) (i64 p2sh),
                      hcti, hsize.2, hsize.1, h1, h2, h3, h4, h5, h6, h7, h8⟩
              · rcases acceptTx_cases env nH { s with pq := ⟨s.pq.byFee, rest⟩ }
                    item (u32 (env.serializeSize item.tx))
                    (add64 (i64 (env.countSigOps item.tx)) (i64 p2sh)) with
                  hskip | ⟨hcti, h1, h2, h3, h4, h5, h6, h7, h8, _⟩
                · rw [hskip]
                  exact Or.inl (StepSkip_pq s _)
                · right
                  push_neg at hsize
                  exact ⟨item, add64 (i64 (env.countSigOps item.tx)) (i64 p2sh),
                    hcti, hsize.2, hsize.1, h1, h2, h3, h4, h5, h6, h7, h8⟩

theorem assembleLoop_inv {env : Env} {nH : Nat} (Inv : LoopState → Prop)
    (hstep : ∀ s, Inv s → Inv (assembleStep env nH s)) :
    ∀ (fuel : Nat) (s : LoopState), Inv s → Inv (assembleLoop env nH fuel s) := by
  intro fuel
  induction fuel with
  | zero => intro s hs; exact hs
  | succ n ih =>
    intro s hs
    unfold assembleLoop
    split
    · exact hs
    · exact ih _ (hstep s hs)

theorem headD_append_ne {α : Type} [Inhabited α] (l : List α) (x : α) (h : l ≠ []) :
    (l ++ [x]).headD default = l.headD default := by
  cases l
  · exact absurd rfl h
  · rfl

theorem assembleLoop_head (env : Env) (nH : Nat) (fuel : Nat) (s : LoopState)
    (h1 : s.blockTxns ≠ []) :
    (assembleLoop env nH fuel s).blockTxns ≠ [] ∧
    (assembleLoop env nH fuel s).blockTxns.headD default = s.blockTxns.headD default := by
  refine assembleLoop_inv
    (fun a => a.blockTxns ≠ [] ∧ a.blockTxns.headD default = s.blockTxns.headD default)
    ?_ fuel s ⟨h1, rfl⟩
  intro a ha
  rcases assembleStep_skip_or_accept env nH a with hsk | hac
  · rw [hsk.2.1]
    exact ha
  · obtain ⟨it, nso, _, _, _, _, htxns, _⟩ := hac
    rw [htxns]
    exact ⟨by simp, by rw [headD_append_ne _ _ ha.1]; exact ha.2⟩

/-! ### Claim theorems -/

/-- C10: `UpdateBlockTime` never surfaces an error: for every environment,
block and validator key it returns the refreshed block with a `nil` error,
even though its interface allows an error result. -/
theorem C10_update_block_time_never_errors (env : Env) (blk : MsgBlock) (key : Nat) :
    UpdateBlockTime env blk key = Except.ok (refreshedBlock env blk key) := rfl

/-- C8: `UpdateBlockTime` modifies only the header timestamp and the header
signature: the transaction list, version, previous hash, Merkle root, bits,
height and recorded size of the returned block all equal those of the input
block, for every block and validator key. -/
theorem C8_update_block_time_frame (env : Env) (blk : MsgBlock) (key : Nat)
    (b2 : MsgBlock) (h : UpdateBlockTime env blk key = Except.ok b2) :
    b2.transactions = blk.transactions ∧
    b2.header.version = blk.header.version ∧
    b2.header.prevBlock = blk.header.prevBlock ∧
    b2.header.merkleRoot = blk.header.merkleRoot ∧
    b2.header.bits = blk.header.bits ∧
    b2.header.height = blk.header.height ∧
    b2.header.size = blk.header.size := by
  have hb : refreshedBlock env blk key = b2 := by
    unfold UpdateBlockTime at h
    injection h
  subst hb
  exact ⟨rfl, rfl, rfl, rfl, rfl, rfl, rfl⟩

theorem C8_update_block_time_frame_witness :
    (UpdateBlockTime baseEnv fixtureBlock 1 = Except.ok (refreshedBlock baseEnv fixtureBlock 1)) ∧
    ((refreshedBlock baseEnv fixtureBlock 1).transactions = fixtureBlock.transactions ∧
      (refreshedBlock baseEnv fixtureBlock 1).header.version = fixtureBlock.header.version ∧
      (refreshedBlock baseEnv fixtureBlock 1).header.prevBlock = fixtureBlock.header.prevBlock ∧
      (refreshedBlock baseEnv fixtureBlock 1).header.merkleRoot = fixtureBlock.header.merkleRoot ∧
      (refreshedBlock baseEnv fixtureBlock 1).header.bits = fixtureBlock.header.bits ∧
      (refreshedBlock baseEnv fixtureBlock 1).header.height = fixtureBlock.header.height ∧
      (refreshedBlock baseEnv fixtureBlock 1).header.size = fixtureBlock.header.size) :=
  ⟨rfl, C8_update_block_time_frame baseEnv fixtureBlock 1 _ rfl⟩

/-- C5 (amended): the header timestamp of every successful template equals
the maximum of the adjusted time as returned by the time source — which the
generator does not truncate — and the snapshot median time plus one second;
it therefore never precedes the median time plus one second, and it agrees
with the specification formula whenever the time source returns whole
seconds. -/
theorem C5_header_timestamp (env : Env) (payTo : Option Nat) (key : Nat)
    (t : BlockTemplate) (h : NewBlockTemplate env payTo key = some t) :
    t.block.header.timestamp = medianAdjustedTime env ∧
    (t.block.header.timestamp).before (minimumMedianTime env) = false ∧
    (env.adjustedTime.nsec = 0 → t.block.header.timestamp = specHeaderTimestamp env) := by
  obtain ⟨cb, bits, hc, hd, ht⟩ := NewBlockTemplate_some h
  subst ht
  refine ⟨rfl, medianAdjustedTime_not_before_min env, fun hn => ?_⟩
  show medianAdjustedTime env = specHeaderTimestamp env
  have htr : truncToSecond env.adjustedTime = env.adjustedTime := by
    unfold truncToSecond
    cases hA : env.adjustedTime with
    | mk sec nsec =>
      rw [hA] at hn
      simp only at hn
      simp [hn]
  unfold medianAdjustedTime specHeaderTimestamp minimumMedianTime
  rw [htr]

theorem C5_header_timestamp_witness :
    (NewBlockTemplate baseEnv none 1 = some baseTemplate) ∧
    (baseTemplate.block.header.timestamp = medianAdjustedTime baseEnv ∧
      (baseTemplate.block.header.timestamp).before (minimumMedianTime baseEnv) = false ∧
      (baseEnv.adjustedTime.nsec = 0 →
        baseTemplate.block.header.timestamp = specHeaderTimestamp baseEnv)) :=
  ⟨by decide, C5_header_timestamp baseEnv none 1 baseTemplate (by decide)⟩

/-- C5 (counterexample): with an adjusted time of 100 seconds plus 5
nanoseconds and median time 0, the generated header timestamp keeps the
nanosecond remainder, while the specification formula — which truncates the
adjusted time to whole seconds — yields 100 seconds exactly. -/
theorem C5_counterexample :
    (NewBlockTemplate nsecEnv none 1).map (fun t => t.block.header.timestamp)
      = some ⟨100, 5⟩ ∧
    specHeaderTimestamp nsecEnv = ⟨100, 0⟩ ∧
    ((⟨100, 5⟩ : GoTime) ≠ ⟨100, 0⟩) := by
  refine ⟨by decide, by decide, by decide⟩

/-- Index characterization of the admin scan: the flag is true exactly when
some output classifies as administrative and every earlier output parses. -/
theorem isAdminOuts_iff (env : Env) (l : List TxOut) :
    isAdminOuts env l = true ↔
      ∃ i, i < l.length ∧ classifiesAsAdmin env (l.getD i ⟨0, []⟩) = true ∧
        ∀ j, j < i → (env.parseScript ((l.getD j ⟨0, []⟩).pkScript)).isSome = true := by
  induction l with
  | nil => simp [isAdminOuts]
  | cons o rest ih =>
    constructor
    · intro hT
      unfold isAdminOuts at hT
      cases hp : env.parseScript o.pkScript with
      | none => rw [hp] at hT; simp at hT
      | some pops =>
        rw [hp] at hT
        dsimp only at hT
        by_cases hty : env.typeOfScript pops = provaAdminTy
        · refine ⟨0, by simp, ?_, fun j hj => absurd hj (by omega)⟩
          simp [classifiesAsAdmin, hp, hty]
        · rw [if_neg hty] at hT
          obtain ⟨i, hi, hcl, hall⟩ := ih.mp hT
          refine ⟨i + 1, by simpa using hi, by simpa using hcl, fun j hj => ?_⟩
          cases j with
          | zero => simp [hp]
          | succ n =>
            have := hall n (by omega)
            simpa using this
    · rintro ⟨i, hi, hcl, hall⟩
      unfold isAdminOuts
      cases hp : env.parseScript o.pkScript with
      | none =>
        cases i with
        | zero => simp [classifiesAsAdmin, hp] at hcl
        | succ n =>
          have := hall 0 (by omega)
          simp [hp] at this
      | some pops =>
        dsimp only
        by_cases hty : env.typeOfScript pops = provaAdminTy
        · simp [hty]
        · rw [if_neg hty]
          apply ih.mpr
          cases i with
          | zero =>
            simp only [List.getD_cons_zero] at hcl
            simp [classifiesAsAdmin, hp, hty] at hcl
          | succ n =>
            refine ⟨n, by simpa using hi, by simpa using hcl, fun j hj => ?_⟩
            have := hall (j + 1) (by omega)
            simpa using this

/-- C7 (amended): the admin flag is computed by an in-order scan of the
outputs that stops with a negative answer at the first parse failure: the
flag is true if and only if some output classifies as the administrative
type and every output before it parses successfully.  In particular a later
administrative output is not seen when an earlier script fails to parse. -/
theorem C7_isAdmin_scan (env : Env) (tx : MsgTx) :
    isAdmin env tx = true ↔
      ∃ i, i < tx.txOut.length ∧ classifiesAsAdmin env (tx.txOut.getD i ⟨0, []⟩) = true ∧
        ∀ j, j < i → (env.parseScript ((tx.txOut.getD j ⟨0, []⟩).pkScript)).isSome = true :=
  isAdminOuts_iff env tx.txOut

/-- C7 (counterexample): a transaction whose first output script fails to
parse and whose second output classifies as administrative has a false
admin flag even though one of its outputs classifies as the administrative
type, refuting the claimed equivalence. -/
theorem C7_counterexample :
    isAdmin adminEnv adminTx = false ∧
    adminTx.txOut.any (fun o => classifiesAsAdmin adminEnv o) = true :=
  ⟨by decide, by decide⟩

/-! ### Comparator characterizations -/

theorem lessByPriority_char (a b : TxPrioItem) (ha : a.isAdmin = false) :
    txPQLessByPriority a b = true ↔
      (b.priority < a.priority ∨ (a.priority = b.priority ∧ b.feePerKB < a.feePerKB)) := by
  unfold txPQLessByPriority
  rw [ha]
  simp only [Bool.false_eq_true, if_false]
  split
  · rename_i hpq
    simp only [decide_eq_true_eq, gt_iff_lt, hpq, lt_self_iff_false, false_or, true_and]
  · rename_i hpq
    simp only [decide_eq_true_eq, gt_iff_lt]
    constructor
    · exact Or.inl
    · rintro (hlt | ⟨he, _⟩)
      · exact hlt
      · exact absurd he hpq

theorem lessByFee_char (a b : TxPrioItem) (ha : a.isAdmin = false) :
    txPQLessByFee a b = true ↔
      (b.feePerKB < a.feePerKB ∨ (a.feePerKB = b.feePerKB ∧ b.priority < a.priority)) := by
  unfold txPQLessByFee
  rw [ha]
  simp only [Bool.false_eq_true, if_false]
  split
  · rename_i hpq
    simp only [decide_eq_true_eq, gt_iff_lt, hpq, lt_self_iff_false, false_or, true_and]
  · rename_i hpq
    simp only [decide_eq_true_eq, gt_iff_lt]
    constructor
    · exact Or.inl
    · rintro (hlt | ⟨he, _⟩)
      · exact hlt
      · exact absurd he hpq

/-- C3 (amended): in both comparators an administrative first argument sorts
before anything, so an admin candidate is popped first; restricted to pairs
of non-admin candidates both comparators are strict weak orders —
antisymmetric, transitive, and total up to equality of both sort keys.
Antisymmetry over arbitrary pairs, as the claim stated it, fails: whenever
`i` is admin, `Less(i, j)` holds regardless of `j`, and `Less(j, i)` can
hold at the same time (see the counterexample). -/
theorem C3_comparators_amended :
    (∀ a b : TxPrioItem, a.isAdmin = true →
      txPQLessByPriority a b = true ∧ txPQLessByFee a b = true) ∧
    (∀ a b : TxPrioItem, a.isAdmin = false → b.isAdmin = false →
      ¬(txPQLessByPriority a b = true ∧ txPQLessByPriority b a = true) ∧
      ¬(txPQLessByFee a b = true ∧ txPQLessByFee b a = true)) ∧
    (∀ a b : TxPrioItem, a.isAdmin = false → b.isAdmin = false →
      txPQLessByPriority a b = false → txPQLessByPriority b a = false →
      a.priority = b.priority ∧ a.feePerKB = b.feePerKB) ∧
    (∀ a b : TxPrioItem, a.isAdmin = false → b.isAdmin = false →
      txPQLessByFee a b = false → txPQLessByFee b a = false →
      a.feePerKB = b.feePerKB ∧ a.priority = b.priority) ∧
    (∀ a b c : TxPrioItem, a.isAdmin = false → b.isAdmin = false → c.isAdmin = false →
      txPQLessByPriority a b = true → txPQLessByPriority b c = true →
      txPQLessByPriority a c = true) ∧
    (∀ a b c : TxPrioItem, a.isAdmin = false → b.isAdmin = false → c.isAdmin = false →
      txPQLessByFee a b = true → txPQLessByFee b c = true →
      txPQLessByFee a c = true) := by
  refine ⟨?_, ?_, ?_, ?_, ?_, ?_⟩
  · intro a b ha
    constructor
    · unfold txPQLessByPriority; rw [ha]; simp
    · unfold txPQLessByFee; rw [ha]; simp
  · intro a b ha hb
    constructor
    · rintro ⟨h1, h2⟩
      rw [lessByPriority_char a b ha] at h1
      rw [lessByPriority_char b a hb] at h2
      rcases h1 with h1 | ⟨he1, hf1⟩ <;> rcases h2 with h2 | ⟨he2, hf2⟩
      · exact absurd h1 (lt_asymm h2)
      · exact absurd he2.symm (ne_of_gt h1)
      · exact absurd he1 (ne_of_lt h2)
      · omega
    · rintro ⟨h1, h2⟩
      rw [lessByFee_char a b ha] at h1
      rw [lessByFee_char b a hb] at h2
      rcases h1 with h1 | ⟨he1, hf1⟩ <;> rcases h2 with h2 | ⟨he2, hf2⟩
      · omega
      · omega
      · omega
      · exact absurd hf1 (lt_asymm hf2)
  · intro a b ha hb h1 h2
    have h1n : ¬(b.priority < a.priority ∨ (a.priority = b.priority ∧ b.feePerKB < a.feePerKB)) := by
      rw [← lessByPriority_char a b ha]
      simp [h1]
    have h2n : ¬(a.priority < b.priority ∨ (b.priority = a.priority ∧ a.feePerKB < b.feePerKB)) := by
      rw [← lessByPriority_char b a hb]
      simp [h2]
    push_neg at h1n h2n
    have he : a.priority = b.priority := le_antisymm h1n.1 h2n.1
    exact ⟨he, by have := h1n.2 he; have := h2n.2 he.symm; omega⟩
  · intro a b ha hb h1 h2
    have h1n : ¬(b.feePerKB < a.feePerKB ∨ (a.feePerKB = b.feePerKB ∧ b.priority < a.priority)) := by
      rw [← lessByFee_char a b ha]
      simp [h1]
    have h2n : ¬(a.feePerKB < b.feePerKB ∨ (b.feePerKB = a.feePerKB ∧ a.priority < b.priority)) := by
      rw [← lessByFee_char b a hb]
      simp [h2]
    push_neg at h1n h2n
    have he : a.feePerKB = b.feePerKB := by omega
    refine ⟨he, le_antisymm (h1n.2 he) (h2n.2 he.symm)⟩
  · intro a b c ha hb hc h1 h2
    rw [lessByPriority_char a b ha] at h1
    rw [lessByPriority_char b c hb] at h2
    rw [lessByPriority_char a c ha]
    rcases h1 with h1 | ⟨he1, hf1⟩ <;> rcases h2 with h2 | ⟨he2, hf2⟩
    · exact Or.inl (lt_trans h2 h1)
    · exact Or.inl (he2 ▸ h1)
    · exact Or.inl (he1 ▸ h2)
    · exact Or.inr ⟨he1.trans he2, by omega⟩
  · intro a b c ha hb hc h1 h2
    rw [lessByFee_char a b ha] at h1
    rw [lessByFee_char b c hb] at h2
    rw [lessByFee_char a c ha]
    rcases h1 with h1 | ⟨he1, hf1⟩ <;> rcases h2 with h2 | ⟨he2, hf2⟩
    · exact Or.inl (by omega)
    · exact Or.inl (by omega)
    · exact Or.inl (by omega)
    · exact Or.inr ⟨by omega, lt_trans hf2 hf1⟩

theorem C3_comparators_amended_witness :
    txPQLessByPriority ⟨0, ⟨[], [], 0⟩, 0, 0, 0, true⟩ ⟨1, ⟨[], [], 1⟩, 0, 5, 5, false⟩ = true ∧
    ¬(txPQLessByPriority ⟨1, ⟨[], [], 1⟩, 0, 5, 5, false⟩ ⟨1, ⟨[], [], 1⟩, 0, 5, 5, false⟩ = true ∧
      txPQLessByPriority ⟨1, ⟨[], [], 1⟩, 0, 5, 5, false⟩ ⟨1, ⟨[], [], 1⟩, 0, 5, 5, false⟩ = true) :=
  ⟨(C3_comparators_amended.1 _ _ (by decide)).1,
    (C3_comparators_amended.2.1 _ _ (by decide) (by decide)).1⟩

/-- C3 (counterexample): in the fixture queue, item 0 is admin with the
lowest priority and fee keys and item 1 is not admin with the highest keys;
both comparators report each item as sorting before the other, so neither
comparator is antisymmetric, refuting the claimed total-order property. -/
theorem C3_counterexample :
    (pqFixture.items.getD 0 default).isAdmin = true ∧
    (pqFixture.items.getD 1 default).isAdmin = false ∧
    txPQByPriority pqFixture 0 1 = true ∧ txPQByPriority pqFixture 1 0 = true ∧
    txPQByFee pqFixture 0 1 = true ∧ txPQByFee pqFixture 1 0 = true := by
  refine ⟨by decide, by decide, by decide, by decide, by decide, by decide⟩

/-! ### Coinbase facts -/

theorem createCoinbaseTx_none (env : Env) (nH : Nat) :
    createCoinbaseTx env nH none =
      some ⟨[⟨⟨0, maxPrevOutIndex⟩, standardCoinbaseScript, maxTxInSequenceNum⟩],
        [⟨env.calcSubsidy nH, [opTrue]⟩], nH⟩ := rfl

theorem templateState_head (env : Env) (cb : MsgTx) :
    (templateState env cb).blockTxns ≠ [] ∧
    (templateState env cb).blockTxns.headD default = cb := by
  have hne : (initLoopState env cb (buildCandidates env (nextBlockHeight env))).blockTxns ≠ [] := by
    unfold initLoopState
    simp
  have hh := assembleLoop_head env (nextBlockHeight env) (loopFuel env) _ hne
  exact ⟨hh.1, hh.2⟩

theorem settledCoinbase_eq (s : LoopState) (cb : MsgTx)
    (hh : s.blockTxns.headD default = cb) :
    settledCoinbase s = setCoinbaseValue cb (add64 (coinbaseValue cb) s.totalFees) := by
  unfold settledCoinbase
  rw [hh]

/-- C6 (amended): when `payToAddress` is nil, the coinbase output script of a
returned template is the single `OP_TRUE` opcode exactly when the final
coinbase value — the subsidy plus the collected fees, not the fee sum alone
— is nonzero, and the single `OP_RETURN` opcode when that value is zero; in
the zero case the recorded block size is decreased by the difference
between the previous script length and the one-byte null script. -/
theorem C6_coinbase_script (env : Env) (key : Nat) (t : BlockTemplate)
    (h : NewBlockTemplate env none key = some t) :
    (coinbaseValue (t.block.transactions.headD default) ≠ 0 →
      (t.block.transactions.headD default).txOut.map (fun o => o.pkScript) = [[opTrue]]) ∧
    (coinbaseValue (t.block.transactions.headD default) = 0 →
      (t.block.transactions.headD default).txOut.map (fun o => o.pkScript) = [[opReturn]]) ∧
    (∀ cb2 bs, coinbaseValue cb2 = 0 →
      applyNullShrink cb2 bs =
        (setCoinbaseScript cb2 [opReturn],
          sub32 bs (u32ofInt (((coinbaseScriptLen cb2 : Int)) - 1)))) := by
  obtain ⟨cb, bits, hc, hd, ht⟩ := NewBlockTemplate_some h
  rw [createCoinbaseTx_none env (nextBlockHeight env)] at hc
  have hcb : cb = ⟨[⟨⟨0, maxPrevOutIndex⟩, standardCoinbaseScript, maxTxInSequenceNum⟩],
      [⟨env.calcSubsidy (nextBlockHeight env), [opTrue]⟩], nextBlockHeight env⟩ :=
    ((Option.some.injEq _ _).mp hc).symm
  subst ht
  have hset : settledCoinbase (templateState env cb) =
      ⟨cb.txIn,
        [⟨add64 (env.calcSubsidy (nextBlockHeight env)) (templateState env cb).totalFees,
          [opTrue]⟩],
        cb.lockTime⟩ := by
    rw [settledCoinbase_eq _ cb (templateState_head env cb).2, hcb]
    rfl
  have hval : coinbaseValue (settledCoinbase (templateState env cb))
      = add64 (env.calcSubsidy (nextBlockHeight env)) (templateState env cb).totalFees := by
    rw [hset]
    rfl
  have hheadeq : (finalBlock env (nextBlockHeight env) key (templateState env cb) bits).transactions.headD default
      = (shrunkPair (templateState env cb)).1 := rfl
  by_cases hz : add64 (env.calcSubsidy (nextBlockHeight env)) (templateState env cb).totalFees = 0
  · have hshr : (shrunkPair (templateState env cb)).1
        = ⟨cb.txIn,
            [⟨add64 (env.calcSubsidy (nextBlockHeight env)) (templateState env cb).totalFees,
              [opReturn]⟩],
            cb.lockTime⟩ := by
      unfold shrunkPair applyNullShrink
      rw [if_pos (by rw [hval]; exact hz), hset]
      rfl
    refine ⟨?_, ?_, fun cb2 bs hz2 => by unfold applyNullShrink; rw [if_pos hz2]⟩
    · intro hv
      exfalso
      apply hv
      rw [hheadeq, hshr]
      exact hz
    · intro _
      rw [hheadeq, hshr]
      rfl
  · have hshr : (shrunkPair (templateState env cb)).1 = settledCoinbase (templateState env cb) := by
      unfold shrunkPair applyNullShrink
      rw [if_neg (by rw [hval]; exact hz)]
    refine ⟨?_, ?_, fun cb2 bs hz2 => by unfold applyNullShrink; rw [if_pos hz2]⟩
    · intro _
      rw [hheadeq, hshr, hset]
      rfl
    · intro hv
      exfalso
      rw [hheadeq, hshr, hval] at hv
      exact hz hv

theorem C6_coinbase_script_witness :
    (NewBlockTemplate baseEnv none 1 = some baseTemplate) ∧
    ((coinbaseValue (baseTemplate.block.transactions.headD default) ≠ 0 →
        (baseTemplate.block.transactions.headD default).txOut.map (fun o => o.pkScript) = [[opTrue]]) ∧
      (coinbaseValue (baseTemplate.block.transactions.headD default) = 0 →
        (baseTemplate.block.transactions.headD default).txOut.map (fun o => o.pkScript) = [[opReturn]]) ∧
      (∀ cb2 bs, coinbaseValue cb2 = 0 →
        applyNullShrink cb2 bs =
          (setCoinbaseScript cb2 [opReturn],
            sub32 bs (u32ofInt (((coinbaseScriptLen cb2 : Int)) - 1))))) :=
  ⟨by decide, C6_coinbase_script baseEnv 1 baseTemplate (by decide)⟩

/-- C6 (counterexample): with no payout address, an empty pool and subsidy
50 the fee sum of the returned template is zero, yet the coinbase output
script is the `OP_TRUE` anyone-can-spend opcode and not the `OP_RETURN`
null-data script: the shrink is keyed on the coinbase value, not on the fee
sum. -/
theorem C6_counterexample :
    (NewBlockTemplate baseEnv none 1).map
        (fun t => (t.fees, (t.block.transactions.headD default).txOut.map (fun o => o.pkScript)))
      = some ([0], [[opTrue]]) ∧
    [[opTrue]] ≠ [[opReturn]] :=
  ⟨by decide, by decide⟩

/-! ### Fee settlement (C1) -/

theorem tail_append_ne {α : Type} (l : List α) (x : α) (h : l ≠ []) :
    (l ++ [x]).tail = l.tail ++ [x] := by
  cases l
  · exact absurd rfl h
  · rfl

theorem templateState_fees (env : Env) (cb : MsgTx) :
    (templateState env cb).totalFees = i64sum (templateState env cb).txFees.tail ∧
    (templateState env cb).txFees ≠ [] := by
  refine assembleLoop_inv (fun a => a.totalFees = i64sum a.txFees.tail ∧ a.txFees ≠ [])
    ?_ (loopFuel env) _ ⟨rfl, by simp [initLoopState]⟩
  intro a ha
  rcases assembleStep_skip_or_accept env (nextBlockHeight env) a with hsk | hac
  · rw [hsk.2.2.2.2.1, hsk.2.2.2.2.2.1]
    exact ha
  · obtain ⟨it, nso, _, _, _, _, _, _, _, htot, hfees, _, _⟩ := hac
    rw [htot, hfees, tail_append_ne _ _ ha.2, i64sum_append_one, ha.1]
    exact ⟨rfl, by simp⟩

theorem createCoinbaseTx_shape (env : Env) (nH : Nat) (p : Option Nat) (cb : MsgTx)
    (hc : createCoinbaseTx env nH p = some cb) :
    ∃ pk, cb = ⟨[⟨⟨0, maxPrevOutIndex⟩, standardCoinbaseScript, maxTxInSequenceNum⟩],
      [⟨env.calcSubsidy nH, pk⟩], nH⟩ := by
  unfold createCoinbaseTx at hc
  split at hc
  · simp at hc
  · rename_i pk hpk
    exact ⟨pk, ((Option.some.injEq _ _).mp hc).symm⟩

theorem setCoinbaseScript_value (cb : MsgTx) (sc : List Nat) :
    coinbaseValue (setCoinbaseScript cb sc) = coinbaseValue cb := by
  unfold setCoinbaseScript coinbaseValue
  cases h : cb.txOut <;> simp [h]

theorem applyNullShrink_value (cb : MsgTx) (bs : Nat) :
    coinbaseValue (applyNullShrink cb bs).1 = coinbaseValue cb := by
  unfold applyNullShrink
  split
  · exact setCoinbaseScript_value cb [opReturn]
  · rfl

theorem setCoinbaseValue_value (cb : MsgTx) (v : Int) (h : cb.txOut ≠ []) :
    coinbaseValue (setCoinbaseValue cb v) = v := by
  unfold setCoinbaseValue coinbaseValue
  cases hto : cb.txOut
  · exact absurd hto h
  · simp [hto]

/-- C1: for every successfully returned template whose per-transaction fees
are nonnegative and whose totals stay inside the `int64` range (so that the
wrapping accumulator agrees with exact arithmetic), the fee slot 0 equals
the negative of the sum of the other entries, the whole fee list sums to
zero, and the coinbase output value is the subsidy at the template height
plus that fee sum. -/
theorem C1_fee_settlement (env : Env) (payTo : Option Nat) (key : Nat) (t : BlockTemplate)
    (h : NewBlockTemplate env payTo key = some t)
    (hpos : ∀ f ∈ t.fees.tail, 0 ≤ f)
    (hsum : t.fees.tail.sum < HALF64) :
    t.fees.headD 0 = -t.fees.tail.sum ∧
    t.fees.sum = 0 ∧
    (0 ≤ env.calcSubsidy (nextBlockHeight env) →
      env.calcSubsidy (nextBlockHeight env) + t.fees.tail.sum < HALF64 →
      coinbaseValue (t.block.transactions.headD default) =
        env.calcSubsidy (nextBlockHeight env) + t.fees.tail.sum) := by
  obtain ⟨cb, bits, hc, hd, ht⟩ := NewBlockTemplate_some h
  obtain ⟨hinv, hne⟩ := templateState_fees env cb
  obtain ⟨f0, rest, hsf⟩ := List.exists_cons_of_ne_nil hne
  have hfees : t.fees = neg64 (templateState env cb).totalFees :: rest := by
    rw [ht]
    show settledFees (templateState env cb) = _
    unfold settledFees
    rw [hsf]
    rfl
  have htail : t.fees.tail = rest := by rw [hfees]; rfl
  rw [htail] at hpos hsum ⊢
  have hresteq : (templateState env cb).txFees.tail = rest := by rw [hsf]; rfl
  have htot : (templateState env cb).totalFees = rest.sum := by
    rw [hinv, hresteq]
    exact i64sum_eq_sum rest hpos hsum
  have hrest0 : 0 ≤ rest.sum := List.sum_nonneg hpos
  have hhead : t.fees.headD 0 = -rest.sum := by
    rw [hfees]
    show neg64 (templateState env cb).totalFees = -rest.sum
    rw [htot]
    exact neg64_eq rest.sum (by omega) (by omega)
  refine ⟨hhead, ?_, ?_⟩
  · rw [hfees]
    show neg64 (templateState env cb).totalFees + rest.sum = 0
    rw [htot, neg64_eq rest.sum (by omega) (by omega)]
    omega
  · intro hs1 hs2
    obtain ⟨pk, hshape⟩ := createCoinbaseTx_shape env (nextBlockHeight env) payTo cb hc
    have hcbval : coinbaseValue cb = env.calcSubsidy (nextBlockHeight env) := by
      rw [hshape]
      rfl
    have hcbne : cb.txOut ≠ [] := by
      rw [hshape]
      simp
    have hval : coinbaseValue (t.block.transactions.headD default)
        = add64 (coinbaseValue cb) (templateState env cb).totalFees := by
      rw [ht]
      show coinbaseValue (shrunkPair (templateState env cb)).1 = _
      unfold shrunkPair
      rw [applyNullShrink_value]
      rw [settledCoinbase_eq _ cb (templateState_head env cb).2]
      exact setCoinbaseValue_value cb _ hcbne
    rw [hval, hcbval, htot]
    exact add64_eq _ _ (by omega) (by omega)

/-! ### Size-gate facts (C4) -/

theorem varIntSerializeSize_bounds (n : Nat) :
    1 ≤ varIntSerializeSize n ∧ varIntSerializeSize n ≤ 9 := by
  unfold varIntSerializeSize
  split_ifs <;> omega

theorem templateState_blockSize (env : Env) (cb : MsgTx) :
    (templateState env cb).blockSize < W32 ∧
    (initLoopState env cb (buildCandidates env (nextBlockHeight env))).blockSize
      ≤ (templateState env cb).blockSize ∧
    ((templateState env cb).blockSize < env.blockMaxSize ∨
      (templateState env cb).blockSize
        = (initLoopState env cb (buildCandidates env (nextBlockHeight env))).blockSize) := by
  refine assembleLoop_inv
    (fun a => a.blockSize < W32 ∧
      (initLoopState env cb (buildCandidates env (nextBlockHeight env))).blockSize ≤ a.blockSize ∧
      (a.blockSize < env.blockMaxSize ∨
        a.blockSize = (initLoopState env cb (buildCandidates env (nextBlockHeight env))).blockSize))
    ?_ (loopFuel env) _ ⟨?_, le_refl _, Or.inr rfl⟩
  · intro a ha
    rcases assembleStep_skip_or_accept env (nextBlockHeight env) a with hsk | hac
    · rw [hsk.2.2.1]
      exact ha
    · obtain ⟨it, nso, _, hlt, hle, _, _, hsize, _, _, _, _, _⟩ := hac
      rw [hsize]
      exact ⟨Nat.mod_lt _ (by decide), le_trans ha.2.1 hle, Or.inl hlt⟩
  · show _ % W32 < W32
    exact Nat.mod_lt _ (by decide)

theorem u32ofInt_ofNat (n : Nat) (h : n < W32) : u32ofInt ((n : Nat) : Int) = n := by
  unfold u32ofInt
  have hcast : ((W32 : Nat) : Int) = 4294967296 := by norm_num [W32]
  rw [hcast]
  unfold W32 at h
  omega

theorem setCoinbaseValue_scriptLen (cb : MsgTx) (v : Int) :
    coinbaseScriptLen (setCoinbaseValue cb v) = coinbaseScriptLen cb := by
  unfold setCoinbaseValue coinbaseScriptLen
  cases h : cb.txOut <;> simp [h]

/-- C4 (amended): a transaction whose size makes the running block size
exactly equal `policy.BlockMaxSize` is skipped by the assembly loop — the
size gate requires strict inequality, regardless of the sigop budget — and,
whenever the loop's entry size (header overhead plus coinbase size) is at
most `BlockMaxSize` and the coinbase script is nonempty and no longer than
the serialized coinbase, the returned block's recorded size never exceeds
`policy.BlockMaxSize`. -/
theorem C4_size_gate (env : Env) (payTo : Option Nat) (key : Nat) (t : BlockTemplate)
    (cb : MsgTx)
    (h : NewBlockTemplate env payTo key = some t)
    (hc : createCoinbaseTx env (nextBlockHeight env) payTo = some cb)
    (hini : env.maxBlockHeaderPayload + maxVarIntPayload + env.serializeSize cb
      ≤ env.blockMaxSize)
    (hmax : env.blockMaxSize < W32)
    (hscr1 : 1 ≤ coinbaseScriptLen cb)
    (hscr2 : coinbaseScriptLen cb ≤ env.serializeSize cb) :
    t.block.header.size ≤ env.blockMaxSize ∧
    (∀ (nH : Nat) (s : LoopState) (item : TxPrioItem) (rest : List TxPrioItem),
      heapPop (pqLess s.pq.byFee) s.pq.items = some (item, rest) →
      (s.blockSize + u32 (env.serializeSize item.tx)) % W32 = env.blockMaxSize →
      assembleStep env nH s = { s with pq := ⟨s.pq.byFee, rest⟩ }) := by
  constructor
  · obtain ⟨cb2, bits, hc2, hd, ht⟩ := NewBlockTemplate_some h
    rw [hc] at hc2
    have hcb2 : cb = cb2 := (Option.some.injEq _ _).mp hc2
    subst hcb2
    have hssmod : env.serializeSize cb % W32 = env.serializeSize cb := by
      apply Nat.mod_eq_of_lt
      unfold maxVarIntPayload at hini
      omega
    have hinit : (initLoopState env cb (buildCandidates env (nextBlockHeight env))).blockSize
        = env.maxBlockHeaderPayload + maxVarIntPayload + env.serializeSize cb := by
      show ((env.maxBlockHeaderPayload + maxVarIntPayload) + u32 (env.serializeSize cb)) % W32 = _
      unfold u32
      rw [hssmod]
      apply Nat.mod_eq_of_lt
      omega
    obtain ⟨hw, hge, hor⟩ := templateState_blockSize env cb
    rw [hinit] at hge hor
    have hbs_le : (templateState env cb).blockSize ≤ env.blockMaxSize := by
      rcases hor with h1 | h1
      · omega
      · omega
    have hbs_ge : maxVarIntPayload ≤ (templateState env cb).blockSize := by
      unfold maxVarIntPayload at *
      omega
    have hvis := varIntSerializeSize_bounds (templateState env cb).blockTxns.length
    have hcorr : correctedBlockSize (templateState env cb)
        = (templateState env cb).blockSize
          - (maxVarIntPayload - varIntSerializeSize (templateState env cb).blockTxns.length) := by
      unfold correctedBlockSize
      exact sub32_eq _ _ (by unfold maxVarIntPayload at *; omega) hw
    have hcorr_le : correctedBlockSize (templateState env cb) ≤ env.blockMaxSize := by omega
    have hcorr_ge : env.maxBlockHeaderPayload + 1 + env.serializeSize cb
        ≤ correctedBlockSize (templateState env cb) := by
      unfold maxVarIntPayload at *
      omega
    have hcorr_lt : correctedBlockSize (templateState env cb) < W32 := by omega
    have hslen : coinbaseScriptLen (settledCoinbase (templateState env cb))
        = coinbaseScriptLen cb := by
      rw [settledCoinbase_eq _ cb (templateState_head env cb).2]
      exact setCoinbaseValue_scriptLen cb _
    have hfinal : t.block.header.size = (shrunkPair (templateState env cb)).2 := by
      rw [ht]
      rfl
    rw [hfinal]
    unfold shrunkPair applyNullShrink
    split
    · dsimp only
      rw [hslen]
      have hL : u32ofInt (((coinbaseScriptLen cb : Int)) - 1)
          = coinbaseScriptLen cb - 1 := by
        have h1 : (((coinbaseScriptLen cb : Int)) - 1) = ((coinbaseScriptLen cb - 1 : Nat) : Int) := by
          omega
        rw [h1]
        apply u32ofInt_ofNat
        omega
      rw [hL, sub32_eq _ _ (by omega) hcorr_lt]
      omega
    · dsimp only
      exact hcorr_le
  · intro nH s item rest hpop heq
    unfold assembleStep
    rw [hpop]
    dsimp only
    rw [if_pos]
    exact Or.inr (le_of_eq heq.symm)

theorem C4_size_gate_witness :
    (NewBlockTemplate feeEnv none 1 = some feeTemplate) ∧
    (createCoinbaseTx feeEnv (nextBlockHeight feeEnv) none = some feeCb) ∧
    (feeTemplate.block.header.size ≤ feeEnv.blockMaxSize) :=
  ⟨by decide, by decide,
    (C4_size_gate feeEnv none 1 feeTemplate feeCb (by decide) (by decide) (by decide)
      (by decide) (by decide) (by decide)).1⟩

/-- C4 (counterexample): in `fillEnv` the single candidate transaction makes
the running block size exactly equal `BlockMaxSize` (209 + 50 = 259) and
its sigop count is far below the budget, yet the returned template contains
only the coinbase: the size gate of the assembly loop skips a transaction
that fills the block exactly. -/
theorem C4_counterexample :
    ((initLoopState fillEnv
        ⟨[⟨⟨0, maxPrevOutIndex⟩, standardCoinbaseScript, maxTxInSequenceNum⟩],
          [⟨fillEnv.calcSubsidy (nextBlockHeight fillEnv), [opTrue]⟩], nextBlockHeight fillEnv⟩
        (buildCandidates fillEnv (nextBlockHeight fillEnv))).blockSize
      + u32 (fillEnv.serializeSize txSpend5)) = fillEnv.blockMaxSize ∧
    i64 (fillEnv.countSigOps txSpend5) ≤ fillEnv.maxSigOpsPerBlock ∧
    fillEnv.sourceTxns = [⟨txSpend5, 40⟩] ∧
    (NewBlockTemplate fillEnv none 1).map (fun t => t.block.transactions.length) = some 1 :=
  ⟨by decide, by decide, by decide, by decide⟩

/-! ### View lemmas (C2) -/

theorem lookup_mem {h : Nat} {v : UtxoView} {r : Option UtxoEntry}
    (hl : List.lookup h v = some r) : (h, r) ∈ v := by
  induction v with
  | nil => simp at hl
  | cons p rest ih =>
    obtain ⟨k, val⟩ := p
    simp only [List.lookup] at hl
    split at hl
    · rename_i hbeq
      have hk : h = k := by simpa using hbeq
      have hv : val = r := (Option.some.injEq _ _).mp hl
      subst hk
      subst hv
      exact List.mem_cons_self _ _
    · exact List.mem_cons_of_mem _ (ih hl)

theorem viewSet_mem {v : UtxoView} {h : Nat} {e : Option UtxoEntry}
    {q : Nat × Option UtxoEntry} (hq : q ∈ viewSet v h e) : q = (h, e) ∨ q ∈ v := by
  induction v with
  | nil => simpa [viewSet] using hq
  | cons p rest ih =>
    unfold viewSet at hq
    split at hq
    · rcases List.mem_cons.mp hq with h1 | h1
      · exact Or.inl h1
      · exact Or.inr (List.mem_cons_of_mem _ h1)
    · rcases List.mem_cons.mp hq with h1 | h1
      · exact Or.inr (h1 ▸ List.mem_cons_self _ _)
      · rcases ih h1 with h2 | h2
        · exact Or.inl h2
        · exact Or.inr (List.mem_cons_of_mem _ h2)

theorem lookup_cons_self (k : Nat) (val : Option UtxoEntry) (rest : UtxoView) :
    List.lookup k ((k, val) :: rest) = some val := by
  simp [List.lookup]

theorem lookup_cons_ne (k h2 : Nat) (val : Option UtxoEntry) (rest : UtxoView)
    (h : h2 ≠ k) : List.lookup h2 ((k, val) :: rest) = List.lookup h2 rest := by
  have hb : (h2 == k) = false := by simpa using h
  simp [List.lookup, hb]

theorem lookupKey_viewSet (v : UtxoView) (h : Nat) (e : Option UtxoEntry) (h2 : Nat) :
    lookupKey (viewSet v h e) h2 = if h2 = h then some e else lookupKey v h2 := by
  induction v with
  | nil =>
    unfold viewSet lookupKey
    by_cases hh : h2 = h
    · subst hh
      rw [if_pos rfl, lookup_cons_self]
    · rw [if_neg hh, lookup_cons_ne _ _ _ _ hh]
  | cons p rest ih =>
    obtain ⟨k, val⟩ := p
    unfold viewSet
    by_cases hk : k = h
    · rw [if_pos hk]
      subst hk
      unfold lookupKey
      by_cases hh : h2 = k
      · subst hh
        rw [if_pos rfl, lookup_cons_self]
      · rw [if_neg hh, lookup_cons_ne _ _ _ _ hh, lookup_cons_ne _ _ _ _ hh]
    · rw [if_neg hk]
      unfold lookupKey
      by_cases hh : h2 = k
      · subst hh
        rw [lookup_cons_self, if_neg hk, lookup_cons_self]
      · rw [lookup_cons_ne _ _ _ _ hh, lookup_cons_ne _ _ _ _ hh]
        have h3 := ih
        unfold lookupKey at h3
        exact h3

theorem lookupEntry_viewSet (v : UtxoView) (h : Nat) (e : Option UtxoEntry) (h2 : Nat) :
    lookupEntry (viewSet v h e) h2 = if h2 = h then e else lookupEntry v h2 := by
  unfold lookupEntry
  rw [lookupKey_viewSet]
  by_cases hh : h2 = h
  · simp [hh]
  · simp [hh]

theorem chainPairs_viewSet {env : Env} {v : UtxoView} (hcp : chainPairs env v) (h : Nat) :
    chainPairs env (viewSet v h (env.chainView h)) := by
  intro p hp
  rcases viewSet_mem hp with h1 | h1
  · rw [h1]
  · exact hcp p h1

theorem chainPairs_fetch (env : Env) (tx : MsgTx) :
    chainPairs env (fetchUtxoView env tx) := by
  unfold fetchUtxoView
  have hgen : ∀ (hs : List Nat) (v : UtxoView), chainPairs env v →
      chainPairs env (hs.foldl (fun v h => viewSet v h (env.chainView h)) v) := by
    intro hs
    induction hs with
    | nil => intro v hv; exact hv
    | cons h0 rest ih =>
      intro v hv
      rw [List.foldl_cons]
      exact ih _ (chainPairs_viewSet hv h0)
  apply hgen
  apply chainPairs_viewSet
  intro p hp
  simp at hp

theorem chainPairs_mergeOne {env : Env} {acc : UtxoView} {p : Nat × Option UtxoEntry}
    (ha : chainPairs env acc) (hp : p.2 = env.chainView p.1) :
    chainPairs env (mergeOne acc p) := by
  unfold mergeOne
  have hset : chainPairs env (viewSet acc p.1 p.2) := by
    rw [hp]
    exact chainPairs_viewSet ha p.1
  split
  · exact hset
  · exact hset
  · split
    · exact hset
    · exact ha

theorem chainPairs_merge {env : Env} {a b : UtxoView}
    (ha : chainPairs env a) (hb : chainPairs env b) :
    chainPairs env (mergeUtxoView a b) := by
  unfold mergeUtxoView
  induction b generalizing a with
  | nil => exact ha
  | cons p rest ih =>
    rw [List.foldl_cons]
    exact ih (chainPairs_mergeOne ha (hb p (List.mem_cons_self _ _)))
      (fun q hq => hb q (List.mem_cons_of_mem _ hq))

theorem buildStep_blockUtxos (env : Env) (nH : Nat) (b : BuildState) (d : TxDesc) :
    (buildStep env nH b d).blockUtxos = b.blockUtxos ∨
    (buildStep env nH b d).blockUtxos = mergeUtxoView b.blockUtxos (fetchUtxoView env d.tx) := by
  unfold buildStep
  dsimp only
  split
  · exact Or.inl rfl
  · split
    · exact Or.inl rfl
    · split
      · exact Or.inl rfl
      · split
        · exact Or.inr rfl
        · exact Or.inr rfl

theorem buildCandidates_chainPairs (env : Env) (nH : Nat) :
    chainPairs env (buildCandidates env nH).blockUtxos := by
  unfold buildCandidates
  have hgen : ∀ (ds : List TxDesc) (b : BuildState), chainPairs env b.blockUtxos →
      chainPairs env ((ds.foldl (buildStep env nH) b).blockUtxos) := by
    intro ds
    induction ds with
    | nil => intro b hb; exact hb
    | cons d rest ih =>
      intro b hb
      rw [List.foldl_cons]
      apply ih
      rcases buildStep_blockUtxos env nH b d with h1 | h1
      · rw [h1]; exact hb
      · rw [h1]; exact chainPairs_merge hb (chainPairs_fetch env d.tx)
  apply hgen
  intro p hp
  simp at hp

theorem spendFold_lookup (v : UtxoView) :
    ∀ (ins : List TxIn) (acc : UtxoView),
      (∀ h2 e, lookupEntry acc h2 = some e → ∃ e0, lookupEntry v h2 = some e0) →
      ∀ h2 e, lookupEntry (ins.foldl spendOne acc) h2 = some e →
        ∃ e0, lookupEntry v h2 = some e0 := by
  intro ins
  induction ins with
  | nil => intro acc hacc; exact hacc
  | cons i rest ih =>
    intro acc hacc
    rw [List.foldl_cons]
    apply ih
    intro h2 e hl
    unfold spendOne at hl
    split at hl
    · rename_i e1 he1
      rw [lookupEntry_viewSet] at hl
      split at hl
      · rename_i hh
        subst hh
        exact hacc _ _ he1
      · exact hacc _ _ hl
    · exact hacc _ _ hl

theorem spendTransactionView_lookup (env : Env) (v : UtxoView) (tx : MsgTx) (h2 : Nat)
    (e : UtxoEntry) (hl : lookupEntry (spendTransactionView env v tx) h2 = some e) :
    (∃ e0, lookupEntry v h2 = some e0) ∨ h2 = env.txHash tx := by
  unfold spendTransactionView at hl
  rw [lookupEntry_viewSet] at hl
  split at hl
  · rename_i hh
    exact Or.inr hh
  · exact Or.inl (spendFold_lookup v tx.txIn v (fun _ _ h => ⟨_, h⟩) h2 e hl)

theorem mem_tail_index {l : List MsgTx} {tx : MsgTx} (h : tx ∈ l.tail) :
    ∃ j, 1 ≤ j ∧ j < l.length ∧ l.getD j default = tx := by
  cases l with
  | nil => simp at h
  | cons a t =>
    simp only [List.tail_cons] at h
    obtain ⟨j, hjl, hget⟩ := List.getElem_of_mem h
    refine ⟨j + 1, by omega, by simp; omega, ?_⟩
    rw [List.getD_cons_succ, List.getD_eq_getElem t default hjl]
    exact hget

theorem checkTransactionInputs_lookup {env : Env} {tx : MsgTx} {nH : Nat} {v : UtxoView}
    (hcti : checkTransactionInputs env tx nH v = true) :
    ∀ i ∈ tx.txIn, ∃ e, lookupEntry v i.prevOut.hash = some e := by
  intro i hi
  unfold checkTransactionInputs at hcti
  have hall := (Bool.and_eq_true _ _).mp hcti |>.1
  have := (List.all_eq_true.mp hall) i hi
  cases hle : lookupEntry v i.prevOut.hash with
  | none => rw [hle] at this; simp at this
  | some e => exact ⟨e, rfl⟩

/-- Combined loop invariant for the ancestor-ordering claim. -/
theorem C2Inv_step (env : Env) (nH : Nat) (s : LoopState)
    (h : s.blockTxns ≠ [] ∧ viewProvenance env s ∧ ancestorOrdering env s) :
    (assembleStep env nH s).blockTxns ≠ [] ∧
    viewProvenance env (assembleStep env nH s) ∧
    ancestorOrdering env (assembleStep env nH s) := by
  obtain ⟨hne, hprov, hord⟩ := h
  rcases assembleStep_skip_or_accept env nH s with hsk | hac
  · rw [StepSkip] at hsk
    unfold viewProvenance ancestorOrdering
    rw [hsk.1, hsk.2.1]
    exact ⟨hne, hprov, hord⟩
  · obtain ⟨it, nso, hcti, _, _, hview, htxns, _⟩ := hac
    have htail : (assembleStep env nH s).blockTxns.tail = s.blockTxns.tail ++ [it.tx] := by
      rw [htxns]
      exact tail_append_ne _ _ hne
    refine ⟨by rw [htxns]; simp, ?_, ?_⟩
    · intro h2 e hl
      rw [hview] at hl
      rcases spendTransactionView_lookup env s.blockUtxos it.tx h2 e hl with ⟨e0, he0⟩ | hh
      · rcases hprov h2 e0 he0 with hchain | ⟨tx2, htx2, hhash⟩
        · exact Or.inl hchain
        · exact Or.inr ⟨tx2, by rw [htail]; exact List.mem_append_left _ htx2, hhash⟩
      · exact Or.inr ⟨it.tx, by rw [htail]; exact List.mem_append_right _ (by simp), hh.symm⟩
    · intro k hk1 hk2 i hi
      rw [htxns] at hk2 hi
      rw [List.length_append, List.length_singleton] at hk2
      by_cases hkold : k < s.blockTxns.length
      · rw [List.getD_append _ _ _ _ hkold] at hi
        rcases hord k hk1 hkold i hi with hchain | ⟨j, hj1, hj2, hj3⟩
        · exact Or.inl hchain
        · refine Or.inr ⟨j, hj1, hj2, ?_⟩
          rw [htxns, List.getD_append _ _ _ _ (by omega)]
          exact hj3
      · have hkeq : k = s.blockTxns.length := by omega
        have hgetk : (s.blockTxns ++ [it.tx]).getD k default = it.tx := by
          rw [hkeq]
          rw [List.getD_eq_getElem _ default (by simp)]
          simp
        rw [hgetk] at hi
        obtain ⟨e, he⟩ := checkTransactionInputs_lookup hcti i hi
        rcases hprov i.prevOut.hash e he with hchain | ⟨tx2, htx2, hhash⟩
        · exact Or.inl hchain
        · obtain ⟨j, hj1, hj2, hj3⟩ := mem_tail_index htx2
          refine Or.inr ⟨j, hj1, by omega, ?_⟩
          rw [htxns, List.getD_append _ _ _ _ hj2, hj3]
          exact hhash

theorem templateState_ordering (env : Env) (cb : MsgTx) :
    (templateState env cb).blockTxns ≠ [] ∧
    viewProvenance env (templateState env cb) ∧
    ancestorOrdering env (templateState env cb) := by
  refine assembleLoop_inv
    (fun a => a.blockTxns ≠ [] ∧ viewProvenance env a ∧ ancestorOrdering env a)
    (C2Inv_step env (nextBlockHeight env)) (loopFuel env) _ ⟨?_, ?_, ?_⟩
  · unfold initLoopState
    simp
  · intro h2 e hl
    left
    have hcp := buildCandidates_chainPairs env (nextBlockHeight env)
    have hl2 : lookupEntry (buildCandidates env (nextBlockHeight env)).blockUtxos h2 = some e := hl
    unfold lookupEntry lookupKey at hl2
    cases hlk : List.lookup h2 (buildCandidates env (nextBlockHeight env)).blockUtxos with
    | none =>
      rw [hlk] at hl2
      simp at hl2
    | some r =>
      rw [hlk] at hl2
      have hr : r = some e := by
        cases r with
        | none => simp at hl2
        | some e2 => simpa using hl2
      have hch := hcp _ (lookup_mem hlk)
      rw [hr] at hch
      rw [← hch]
      simp
  · intro k hk1 hk2
    unfold initLoopState at hk2
    simp at hk2
    omega

/-- C2: in every successfully returned template, every input of every
non-coinbase transaction `T` — in particular every input referencing a
transaction available in the source pool — references either a transaction
of the confirmed chain view or a transaction placed at a strictly earlier
index of the block's transaction list; a child whose parent is skipped is
never included. -/
theorem C2_ancestor_ordering (env : Env) (payTo : Option Nat) (key : Nat)
    (t : BlockTemplate) (h : NewBlockTemplate env payTo key = some t)
    (k : Nat) (hk1 : 1 ≤ k) (hk2 : k < t.block.transactions.length)
    (i : TxIn) (hi : i ∈ (t.block.transactions.getD k default).txIn)
    (hpool : env.haveTransaction i.prevOut.hash = true) :
    env.chainView i.prevOut.hash ≠ none ∨
    ∃ j, 1 ≤ j ∧ j < k ∧
      env.txHash (t.block.transactions.getD j default) = i.prevOut.hash := by
  obtain ⟨cb, bits, hc, hd, ht⟩ := NewBlockTemplate_some h
  obtain ⟨hne, hprov, hord⟩ := templateState_ordering env cb
  obtain ⟨a, tl, hbt⟩ := List.exists_cons_of_ne_nil hne
  have htrans : t.block.transactions = (shrunkPair (templateState env cb)).1 :: tl := by
    rw [ht]
    show finalTxns (templateState env cb) = _
    unfold finalTxns
    rw [hbt]
    rfl
  have hget : ∀ j, 1 ≤ j → t.block.transactions.getD j default
      = (templateState env cb).blockTxns.getD j default := by
    intro j hj
    rw [htrans, hbt]
    cases j with
    | zero => omega
    | succ n => rw [List.getD_cons_succ, List.getD_cons_succ]
  have hlen : t.block.transactions.length = (templateState env cb).blockTxns.length := by
    rw [htrans, hbt]
    simp
  rw [hget k hk1] at hi
  rw [hlen] at hk2
  rcases hord k hk1 hk2 i hi with hchain | ⟨j, hj1, hj2, hj3⟩
  · exact Or.inl hchain
  · refine Or.inr ⟨j, hj1, hj2, ?_⟩
    rw [hget j hj1, hj3]

theorem C2_ancestor_ordering_witness :
    (NewBlockTemplate feeEnv none 1 = some feeTemplate) ∧
    (1 ≤ 1 ∧ 1 < feeTemplate.block.transactions.length) ∧
    ((⟨⟨5, 0⟩, [], 0⟩ : TxIn) ∈ (feeTemplate.block.transactions.getD 1 default).txIn) ∧
    (feeEnv.haveTransaction (⟨⟨5, 0⟩, [], 0⟩ : TxIn).prevOut.hash = true) ∧
    (feeEnv.chainView (⟨⟨5, 0⟩, [], 0⟩ : TxIn).prevOut.hash ≠ none ∨
      ∃ j, 1 ≤ j ∧ j < 1 ∧
        feeEnv.txHash (feeTemplate.block.transactions.getD j default)
          = (⟨⟨5, 0⟩, [], 0⟩ : TxIn).prevOut.hash) :=
  ⟨by decide, ⟨le_refl 1, by decide⟩, by decide, by decide,
    C2_ancestor_ordering feeEnv none 1 feeTemplate (by decide) 1 (le_refl 1) (by decide)
      ⟨⟨5, 0⟩, [], 0⟩ (by decide) (by decide)⟩

theorem C1_fee_settlement_witness :
    (NewBlockTemplate feeEnv none 1 = some feeTemplate) ∧
    (∀ f ∈ feeTemplate.fees.tail, (0 : Int) ≤ f) ∧
    feeTemplate.fees.tail.sum < HALF64 ∧
    (feeTemplate.fees.headD 0 = -feeTemplate.fees.tail.sum ∧
      feeTemplate.fees.sum = 0 ∧
      (0 ≤ feeEnv.calcSubsidy (nextBlockHeight feeEnv) →
        feeEnv.calcSubsidy (nextBlockHeight feeEnv) + feeTemplate.fees.tail.sum < HALF64 →
        coinbaseValue (feeTemplate.block.transactions.headD default) =
          feeEnv.calcSubsidy (nextBlockHeight feeEnv) + feeTemplate.fees.tail.sum)) :=
  ⟨by decide, by decide, by decide,
    C1_fee_settlement feeEnv none 1 feeTemplate (by decide) (by decide) (by decide)⟩

/-! ### Heap bookkeeping for the termination argument (C9)

The heap operations permute the backing list; in particular a pop removes
exactly one element and a push appends exactly one. -/

theorem lswap_length (l : List TxPrioItem) (i j : Nat) :
    (lswap l i j).length = l.length := by
  simp [lswap]

theorem getD_cons_set_perm :
    ∀ (t : List TxPrioItem) (m : Nat) (a : TxPrioItem), m < t.length →
      List.Perm (t.getD m default :: t.set m a) (a :: t)
  | [], _, _, h => absurd h (by simp)
  | b :: t2, 0, a, _ => by
    simp only [List.getD_cons_zero, List.set_cons_zero]
    exact List.Perm.swap a b t2
  | b :: t2, m + 1, a, h => by
    simp only [List.getD_cons_succ, List.set_cons_succ]
    have h2 : m < t2.length := by simpa using h
    exact ((List.Perm.swap b (t2.getD m default) (t2.set m a)).trans
      (List.Perm.cons b (getD_cons_set_perm t2 m a h2))).trans (List.Perm.swap a b t2)

theorem lswap_perm :
    ∀ (l : List TxPrioItem) (i j : Nat), i < l.length → j < l.length →
      List.Perm (lswap l i j) l
  | [], _, _, hi, _ => absurd hi (by simp)
  | a :: t, 0, 0, _, _ => by
    simp only [lswap, List.getD_cons_zero, List.set_cons_zero]
    exact List.Perm.refl _
  | a :: t, 0, j + 1, _, hj => by
    have h2 : j < t.length := by simpa using hj
    have he : lswap (a :: t) 0 (j + 1) = t.getD j default :: t.set j a := by
      simp only [lswap, List.getD_cons_succ, List.getD_cons_zero, List.set_cons_zero,
        List.set_cons_succ]
    rw [he]
    exact getD_cons_set_perm t j a h2
  | a :: t, i + 1, 0, hi, _ => by
    have h2 : i < t.length := by simpa using hi
    have he : lswap (a :: t) (i + 1) 0 = t.getD i default :: t.set i a := by
      simp only [lswap, List.getD_cons_succ, List.getD_cons_zero, List.set_cons_zero,
        List.set_cons_succ]
    rw [he]
    exact getD_cons_set_perm t i a h2
  | a :: t, i + 1, j + 1, hi, hj => by
    have he : lswap (a :: t) (i + 1) (j + 1) = a :: lswap t i j := by
      simp only [lswap, List.getD_cons_succ, List.set_cons_succ]
    rw [he]
    exact List.Perm.cons a (lswap_perm t i j (by simpa using hi) (by simpa using hj))

theorem heapDownF_length (less : TxPrioItem → TxPrioItem → Bool) :
    ∀ (fuel : Nat) (l : List TxPrioItem) (i n : Nat),
      (heapDownF less fuel l i n).length = l.length := by
  intro fuel
  induction fuel with
  | zero => intro l i n; rfl
  | succ f ih =>
    intro l i n
    unfold heapDownF
    split
    · dsimp only
      split <;> split
      · rw [ih]; exact lswap_length l i _
      · rfl
      · rw [ih]; exact lswap_length l i _
      · rfl
    · rfl

theorem heapDownF_perm (less : TxPrioItem → TxPrioItem → Bool) :
    ∀ (fuel : Nat) (l : List TxPrioItem) (i n : Nat), n ≤ l.length →
      List.Perm (heapDownF less fuel l i n) l := by
  intro fuel
  induction fuel with
  | zero => intro l i n _; exact List.Perm.refl l
  | succ f ih =>
    intro l i n hn
    unfold heapDownF
    split
    · rename_i hij
      dsimp only
      split
      · rename_i hc
        simp only [Bool.and_eq_true, decide_eq_true_eq] at hc
        split
        · exact List.Perm.trans
            (ih (lswap l i (2 * i + 2)) (2 * i + 2) n (by rw [lswap_length]; exact hn))
            (lswap_perm l i (2 * i + 2) (by omega) (by omega))
        · exact List.Perm.refl l
      · split
        · exact List.Perm.trans
            (ih (lswap l i (2 * i + 1)) (2 * i + 1) n (by rw [lswap_length]; exact hn))
            (lswap_perm l i (2 * i + 1) (by omega) (by omega))
        · exact List.Perm.refl l
    · exact List.Perm.refl l

theorem heapUpF_length (less : TxPrioItem → TxPrioItem → Bool) :
    ∀ (fuel : Nat) (l : List TxPrioItem) (j : Nat),
      (heapUpF less fuel l j).length = l.length := by
  intro fuel
  induction fuel with
  | zero => intro l j; rfl
  | succ f ih =>
    intro l j
    unfold heapUpF
    split
    · rfl
    · rw [ih]; exact lswap_length l _ j

theorem heapUpF_perm (less : TxPrioItem → TxPrioItem → Bool) :
    ∀ (fuel : Nat) (l : List TxPrioItem) (j : Nat), j < l.length →
      List.Perm (heapUpF less fuel l j) l := by
  intro fuel
  induction fuel with
  | zero => intro l j _; exact List.Perm.refl l
  | succ f ih =>
    intro l j hj
    unfold heapUpF
    split
    · exact List.Perm.refl l
    · rename_i hcond
      push_neg at hcond
      have hj0 : j ≠ 0 := by
        intro h0
        subst h0
        exact hcond.1 rfl
      have hp : (j - 1) / 2 < l.length := by omega
      exact List.Perm.trans
        (ih (lswap l ((j - 1) / 2) j) ((j - 1) / 2) (by rw [lswap_length]; omega))
        (lswap_perm l ((j - 1) / 2) j hp hj)

theorem heapInit_fold_perm (less : TxPrioItem → TxPrioItem → Bool) (n : Nat) :
    ∀ (idxs : List Nat) (acc : List TxPrioItem), n ≤ acc.length →
      List.Perm (idxs.foldl (fun a i => heapDown less a i n) acc) acc := by
  intro idxs
  induction idxs with
  | nil => intro acc _; exact List.Perm.refl acc
  | cons i is ih =>
    intro acc hn
    rw [List.foldl_cons]
    have h1 : List.Perm (heapDown less acc i n) acc :=
      heapDownF_perm less (n + 1) acc i n hn
    have h2 : n ≤ (heapDown less acc i n).length := by
      unfold heapDown
      rw [heapDownF_length]
      exact hn
    exact (ih _ h2).trans h1

theorem heapInit_perm (less : TxPrioItem → TxPrioItem → Bool) (l : List TxPrioItem) :
    List.Perm (heapInit less l) l := by
  unfold heapInit
  exact heapInit_fold_perm less l.length _ l (le_refl _)

theorem heapPush_perm (less : TxPrioItem → TxPrioItem → Bool) (l : List TxPrioItem)
    (x : TxPrioItem) : List.Perm (heapPush less l x) (l ++ [x]) := by
  unfold heapPush
  exact heapUpF_perm less (l.length + 1) (l ++ [x]) l.length (by simp)

theorem heapPush_length (less : TxPrioItem → TxPrioItem → Bool) (l : List TxPrioItem)
    (x : TxPrioItem) : (heapPush less l x).length = l.length + 1 := by
  have := (heapPush_perm less l x).length_eq
  simpa using this

theorem take_getD_last :
    ∀ (L : List TxPrioItem) (n : Nat), L.length = n + 1 →
      L = L.take n ++ [L.getD n default]
  | [], _, h => absurd h (by simp)
  | a :: t, 0, h => by
    have ht : t = [] := by simpa using h
    subst ht
    rfl
  | a :: t, n + 1, h => by
    have h2 : t.length = n + 1 := by simpa using h
    simp only [List.take_succ_cons, List.getD_cons_succ, List.cons_append]
    exact congrArg (a :: ·) (take_getD_last t n h2)

theorem heapPop_spec (less : TxPrioItem → TxPrioItem → Bool) (l : List TxPrioItem)
    (hl : l ≠ []) :
    ∃ x rest, heapPop less l = some (x, rest) ∧ List.Perm l (x :: rest) ∧
      rest.length + 1 = l.length := by
  cases l with
  | nil => exact absurd rfl hl
  | cons a t =>
    have hl1p : List.Perm (lswap (a :: t) 0 t.length) (a :: t) :=
      lswap_perm _ 0 t.length (by simp) (by simp)
    have hl1len : (lswap (a :: t) 0 t.length).length = (a :: t).length :=
      lswap_length _ _ _
    have hl2p : List.Perm (heapDown less (lswap (a :: t) 0 t.length) 0 t.length)
        (lswap (a :: t) 0 t.length) := by
      unfold heapDown
      exact heapDownF_perm less _ _ 0 t.length (by rw [hl1len]; simp)
    have hl2len : (heapDown less (lswap (a :: t) 0 t.length) 0 t.length).length
        = t.length + 1 := by
      unfold heapDown
      rw [heapDownF_length, hl1len]
      simp
    have hsplit := take_getD_last
      (heapDown less (lswap (a :: t) 0 t.length) 0 t.length) t.length hl2len
    have heq : heapPop less (a :: t)
        = some ((heapDown less (lswap (a :: t) 0 t.length) 0 t.length).getD
            t.length default,
          (heapDown less (lswap (a :: t) 0 t.length) 0 t.length).take t.length) := rfl
    refine ⟨_, _, heq, ?_, ?_⟩
    · have h5 : List.Perm (a :: t)
          (heapDown less (lswap (a :: t) 0 t.length) 0 t.length) :=
        (hl2p.trans hl1p).symm
      rw [hsplit] at h5
      exact h5.trans List.perm_append_comm
    · simp [List.length_take, hl2len]

/-! ### Dependency-table bookkeeping for the termination argument -/

theorem getD_set_ne (l : List (List Nat)) (i j : Nat) (v : List Nat) (h : i ≠ j) :
    (l.set i v).getD j [] = l.getD j [] := by
  induction l generalizing i j with
  | nil => rfl
  | cons a t ih =>
    cases i with
    | zero =>
      cases j with
      | zero => exact absurd rfl h
      | succ j2 => rfl
    | succ i2 =>
      cases j with
      | zero => rfl
      | succ j2 => simpa using ih i2 j2 (by omega)

theorem getD_set_self (l : List (List Nat)) (i : Nat) (v : List Nat)
    (h : i < l.length) : (l.set i v).getD i [] = v := by
  induction l generalizing i with
  | nil => simp at h
  | cons a t ih =>
    cases i with
    | zero => rfl
    | succ i2 => simpa using ih i2 (by simpa using h)

theorem countP_set (P : List Nat → Bool) :
    ∀ (l : List (List Nat)) (i : Nat) (v : List Nat), i < l.length →
      (l.set i v).countP P + (if P (l.getD i []) then 1 else 0)
        = l.countP P + (if P v then 1 else 0)
  | [], _, _, h => absurd h (by simp)
  | a :: t, 0, v, _ => by
    simp only [List.set_cons_zero, List.getD_cons_zero, List.countP_cons]
    split_ifs <;> omega
  | a :: t, i + 1, v, h => by
    simp only [List.set_cons_succ, List.getD_cons_succ, List.countP_cons]
    have := countP_set P t i v (by simpa using h)
    omega

theorem lookupD_mem {β : Type} {h : Nat} {dd : List (Nat × β)} {r : β}
    (hl : List.lookup h dd = some r) : (h, r) ∈ dd := by
  induction dd with
  | nil => simp at hl
  | cons p rest ih =>
    obtain ⟨k, val⟩ := p
    simp only [List.lookup] at hl
    split at hl
    · rename_i hbeq
      have hk : h = k := by simpa using hbeq
      have hv : val = r := (Option.some.injEq _ _).mp hl
      subst hk
      subst hv
      exact List.mem_cons_self _ _
    · exact List.mem_cons_of_mem _ (ih hl)

theorem nodup_ids_of_good (env : Env) (s : LoopState) :
    ∀ cs : List TxPrioItem, (∀ c ∈ cs, goodItem env s c) →
      (cs.map (fun c => env.txHash c.tx)).Nodup →
      (cs.map (fun c => c.id)).Nodup := by
  intro cs
  induction cs with
  | nil => intro _ _; simp
  | cons c cs2 ih =>
    intro hg hh
    simp only [List.map_cons, List.nodup_cons] at hh ⊢
    refine ⟨?_, ih (fun c' hc' => hg c' (List.mem_cons_of_mem c hc')) hh.2⟩
    intro hmem
    obtain ⟨c', hc'm, hc'id⟩ := List.mem_map.mp hmem
    have hgc := hg c (List.mem_cons_self c cs2)
    have hgc' := hg c' (List.mem_cons_of_mem c hc'm)
    have hcc' : c' = c := by
      have h1 := hgc.2
      have h2 := hgc'.2
      rw [hc'id] at h2
      rw [h1] at h2
      exact h2.symm
    exact hh.1 (List.mem_map.mpr ⟨c', hc'm, by rw [hcc']⟩)

theorem promoteOne_cases (env : Env) (h : Nat) (s : LoopState) (c : TxPrioItem) :
    (promoteOne env h s c).depOn = s.depOn.set c.id ((s.depOn.getD c.id []).erase h) ∧
    (promoteOne env h s c).pq.byFee = s.pq.byFee ∧
    (((s.depOn.getD c.id []).erase h).isEmpty = true ∧
        (promoteOne env h s c).pq.items = heapPush (pqLess s.pq.byFee) s.pq.items c ∨
      ((s.depOn.getD c.id []).erase h).isEmpty = false ∧
        (promoteOne env h s c).pq.items = s.pq.items) := by
  unfold promoteOne
  split
  · rename_i hc
    exact ⟨rfl, rfl, Or.inl ⟨hc, rfl⟩⟩
  · rename_i hc
    exact ⟨rfl, rfl, Or.inr ⟨by simpa using hc, rfl⟩⟩

/-- Net effect of promoting the children recorded under an accepted hash:
some sublist of the children (those whose dependency set empties) joins the
queue, every surviving dependency entry shrinks at most by the accepted
hash, and the queued-plus-parked count never grows. -/
theorem promoteDeps_spec (env : Env) (h : Nat) :
    ∀ (cs : List TxPrioItem) (s : LoopState),
      (∀ c ∈ cs, c.id < s.depOn.length ∧ h ∈ s.depOn.getD c.id []) →
      (cs.map (fun c => c.id)).Nodup →
      ∃ ps : List TxPrioItem,
        ps.Sublist cs ∧
        List.Perm (promoteDeps env h cs s).pq.items (s.pq.items ++ ps) ∧
        (∀ c ∈ ps, (promoteDeps env h cs s).depOn.getD c.id [] = []) ∧
        (promoteDeps env h cs s).depOn.length = s.depOn.length ∧
        (∀ id a, a ∈ (promoteDeps env h cs s).depOn.getD id [] →
          a ∈ s.depOn.getD id []) ∧
        (∀ id a, a ∈ s.depOn.getD id [] → a ≠ h →
          a ∈ (promoteDeps env h cs s).depOn.getD id []) ∧
        (promoteDeps env h cs s).pq.items.length + parkedCount (promoteDeps env h cs s)
          ≤ s.pq.items.length + parkedCount s := by
  intro cs
  induction cs with
  | nil =>
    intro s _ _
    exact ⟨[], List.Sublist.refl [], by simp [promoteDeps],
      fun c hc => absurd hc (by simp), rfl,
      fun id a ha => ha, fun id a ha _ => ha, le_refl _⟩
  | cons c cs2 ih =>
    intro s hmem hnd
    have hfold : promoteDeps env h (c :: cs2) s
        = promoteDeps env h cs2 (promoteOne env h s c) := by
      unfold promoteDeps
      rw [List.foldl_cons]
    obtain ⟨hdep1, hfee1, hcase⟩ := promoteOne_cases env h s c
    have hc0 := hmem c (List.mem_cons_self c cs2)
    have hlen1 : (promoteOne env h s c).depOn.length = s.depOn.length := by
      rw [hdep1, List.length_set]
    have hgetc : (promoteOne env h s c).depOn.getD c.id []
        = (s.depOn.getD c.id []).erase h := by
      rw [hdep1]
      exact getD_set_self _ _ _ hc0.1
    have hgetne : ∀ id, id ≠ c.id →
        (promoteOne env h s c).depOn.getD id [] = s.depOn.getD id [] := by
      intro id hne
      rw [hdep1]
      exact getD_set_ne _ _ _ _ (fun he => hne he.symm)
    have hmem2 : ∀ c' ∈ cs2, c'.id < (promoteOne env h s c).depOn.length ∧
        h ∈ (promoteOne env h s c).depOn.getD c'.id [] := by
      intro c' hc'
      have hm := hmem c' (List.mem_cons_of_mem c hc')
      have hne : c'.id ≠ c.id := by
        simp only [List.map_cons, List.nodup_cons] at hnd
        intro he
        exact hnd.1 (List.mem_map.mpr ⟨c', hc', he⟩)
      rw [hlen1, hgetne c'.id hne]
      exact hm
    have hnd2 : (cs2.map (fun c => c.id)).Nodup := by
      simp only [List.map_cons, List.nodup_cons] at hnd
      exact hnd.2
    obtain ⟨ps2, hsub2, hperm2, hempty2, hlen2, hsubset2, hret2, hmeas2⟩ :=
      ih (promoteOne env h s c) hmem2 hnd2
    have hold : (!(s.depOn.getD c.id []).isEmpty) = true := by
      cases hentry : s.depOn.getD c.id [] with
      | nil =>
        rw [hentry] at hc0
        exact absurd hc0.2 (by simp)
      | cons a t => rfl
    have hcs := countP_set (fun d => !d.isEmpty) s.depOn c.id
      ((s.depOn.getD c.id []).erase h) hc0.1
    dsimp only at hcs
    have hif1 : (if (!(s.depOn.getD c.id []).isEmpty) = true then 1 else 0) = 1 := by
      rw [hold]
      rfl
    rw [hif1] at hcs
    rw [hfold]
    rcases hcase with ⟨hemp, hq⟩ | ⟨hemp, hq⟩
    · -- the dependency set of `c` empties: `c` is pushed
      have h1 : (s.depOn.getD c.id []).erase h = [] := by
        cases hentry : (s.depOn.getD c.id []).erase h with
        | nil => rfl
        | cons a t =>
          rw [hentry] at hemp
          simp at hemp
      have hif2 : (if (!((s.depOn.getD c.id []).erase h).isEmpty) = true
          then 1 else 0) = 0 := by
        rw [hemp]
        rfl
      rw [hif2] at hcs
      have hqlen : (promoteOne env h s c).pq.items.length = s.pq.items.length + 1 := by
        rw [hq]
        exact heapPush_length _ _ _
      have hpark : parkedCount (promoteOne env h s c) + 1 = parkedCount s := by
        unfold parkedCount
        rw [hdep1]
        omega
      refine ⟨c :: ps2, List.Sublist.cons₂ c hsub2, ?_, ?_, ?_, ?_, ?_, ?_⟩
      · have hp1 : List.Perm ((promoteOne env h s c).pq.items) (s.pq.items ++ [c]) := by
          rw [hq]
          exact heapPush_perm _ _ _
        have hp2 := hp1.append_right ps2
        have hp3 : (s.pq.items ++ [c]) ++ ps2 = s.pq.items ++ (c :: ps2) := by
          rw [List.append_assoc]
          rfl
        rw [← hp3]
        exact hperm2.trans hp2
      · intro c' hc'
        rcases List.mem_cons.mp hc' with he | hm
        · subst he
          apply List.eq_nil_iff_forall_not_mem.mpr
          intro a ha
          have h2 := hsubset2 c'.id a ha
          rw [hgetc, h1] at h2
          simp at h2
        · exact hempty2 c' hm
      · rw [hlen2, hlen1]
      · intro id a ha
        have h2 := hsubset2 id a ha
        by_cases hid : id = c.id
        · subst hid
          rw [hgetc] at h2
          exact List.mem_of_mem_erase h2
        · rw [hgetne id hid] at h2
          exact h2
      · intro id a ha hne
        by_cases hid : id = c.id
        · subst hid
          refine hret2 c.id a ?_ hne
          rw [hgetc]
          exact (List.mem_erase_of_ne hne).mpr ha
        · exact hret2 id a (by rw [hgetne id hid]; exact ha) hne
      · omega
    · -- the dependency set of `c` stays nonempty: nothing is pushed
      have hif2 : (if (!((s.depOn.getD c.id []).erase h).isEmpty) = true
          then 1 else 0) = 1 := by
        rw [hemp]
        rfl
      rw [hif2] at hcs
      have hqlen : (promoteOne env h s c).pq.items.length = s.pq.items.length := by
        rw [hq]
      have hpark : parkedCount (promoteOne env h s c) = parkedCount s := by
        unfold parkedCount
        rw [hdep1]
        omega
      refine ⟨ps2, List.Sublist.cons c hsub2, ?_, hempty2, ?_, ?_, ?_, ?_⟩
      · rw [hq] at hperm2
        exact hperm2
      · rw [hlen2, hlen1]
      · intro id a ha
        have h2 := hsubset2 id a ha
        by_cases hid : id = c.id
        · subst hid
          rw [hgetc] at h2
          exact List.mem_of_mem_erase h2
        · rw [hgetne id hid] at h2
          exact h2
      · intro id a ha hne
        by_cases hid : id = c.id
        · subst hid
          refine hret2 c.id a ?_ hne
          rw [hgetc]
          exact (List.mem_erase_of_ne hne).mpr ha
        · exact hret2 id a (by rw [hgetne id hid]; exact ha) hne
      · omega

theorem getD_default_of_le (l : List (List Nat)) (i : Nat) (h : l.length ≤ i) :
    l.getD i [] = [] := by
  induction l generalizing i with
  | nil => rfl
  | cons a t ih =>
    cases i with
    | zero => simp at h
    | succ i2 => simpa using ih i2 (by simpa using h)

theorem getD_mem_nat :
    ∀ (L : List Nat) (i : Nat), i < L.length → L.getD i 0 ∈ L
  | [], _, h => absurd h (by simp)
  | a :: t, 0, _ => List.mem_cons_self a t
  | a :: t, i + 1, h =>
    List.mem_cons_of_mem a (getD_mem_nat t i (by simpa using h))

theorem nodup_getD_inj :
    ∀ (L : List Nat) (i j : Nat), L.Nodup → i < L.length → j < L.length →
      L.getD i 0 = L.getD j 0 → i = j
  | [], _, _, _, hi, _, _ => absurd hi (by simp)
  | a :: t, 0, 0, _, _, _, _ => rfl
  | a :: t, 0, j + 1, hnd, _, hj, he => by
    rw [List.nodup_cons] at hnd
    simp only [List.getD_cons_zero, List.getD_cons_succ] at he
    have hm : t.getD j 0 ∈ t := getD_mem_nat t j (by simpa using hj)
    rw [← he] at hm
    exact absurd hm hnd.1
  | a :: t, i + 1, 0, hnd, hi, _, he => by
    rw [List.nodup_cons] at hnd
    simp only [List.getD_cons_zero, List.getD_cons_succ] at he
    have hm : t.getD i 0 ∈ t := getD_mem_nat t i (by simpa using hi)
    rw [he] at hm
    exact absurd hm hnd.1
  | a :: t, i + 1, j + 1, hnd, hi, hj, he => by
    rw [List.nodup_cons] at hnd
    have := nodup_getD_inj t i j hnd.2 (by simpa using hi) (by simpa using hj)
      (by simpa using he)
    omega

theorem getD_map_hash (env : Env) :
    ∀ (l : List TxPrioItem) (i : Nat), i < l.length →
      (l.map (fun it => env.txHash it.tx)).getD i 0 = env.txHash (l.getD i default).tx
  | [], _, h => absurd h (by simp)
  | a :: t, 0, _ => rfl
  | a :: t, i + 1, h => by simpa using getD_map_hash env t i (by simpa using h)

/-- Distinct candidate hashes force a one-to-one correspondence between good
candidate values and their ids. -/
theorem good_hash_inj (env : Env) (s : LoopState)
    (hnod : (s.items.map (fun it => env.txHash it.tx)).Nodup)
    {c r : TxPrioItem} (hc : goodItem env s c) (hr : goodItem env s r)
    (hh : env.txHash c.tx = env.txHash r.tx) : c = r := by
  have hcid : (s.items.map (fun it => env.txHash it.tx)).getD c.id 0
      = env.txHash c.tx := by
    rw [getD_map_hash env s.items c.id hc.1, hc.2]
  have hrid : (s.items.map (fun it => env.txHash it.tx)).getD r.id 0
      = env.txHash r.tx := by
    rw [getD_map_hash env s.items r.id hr.1, hr.2]
  have hid : c.id = r.id :=
    nodup_getD_inj _ c.id r.id hnod (by simpa using hc.1) (by simpa using hr.1)
      (by rw [hcid, hrid, hh])
  calc c = s.items.getD c.id default := hc.2.symm
    _ = s.items.getD r.id default := by rw [hid]
    _ = r := hr.2

theorem acceptTx_full (env : Env) (nH : Nat) (s : LoopState) (item : TxPrioItem)
    (tsz : Nat) (nso : Int) :
    acceptTx env nH s item tsz nso = s ∨
    acceptTx env nH s item tsz nso
      = promoteDeps env (env.txHash item.tx)
          ((List.lookup (env.txHash item.tx) s.dependers).getD [])
          { s with
            blockUtxos := spendTransactionView env s.blockUtxos item.tx
            blockTxns := s.blockTxns ++ [item.tx]
            blockSize := (s.blockSize + tsz) % W32
            blockSigOps := add64 s.blockSigOps nso
            totalFees := add64 s.totalFees item.fee
            txFees := s.txFees ++ [item.fee]
            txSigOpCounts := s.txSigOpCounts ++ [nso] } := by
  unfold acceptTx
  split_ifs
  · left; rfl
  · left; rfl
  · left; rfl
  · right; rfl

/-- Replacing the queue by one whose members come from the old queue (and
possibly flipping the sort flag) preserves the loop invariant. -/
theorem QInv_requeue (env : Env) (s : LoopState) (q : TxPriorityQueue) (b : Bool)
    (hqsub : ∀ it ∈ q.items, it ∈ s.pq.items)
    (hqnod : (q.items.map (fun it => env.txHash it.tx)).Nodup)
    (hinv : QInv env s) :
    QInv env { s with pq := q, sortedByFee := b } := by
  obtain ⟨h0, h1, h2, _, h4, h5, h6, h7⟩ := hinv
  exact ⟨h0, h1, h2, hqnod, fun it hit => h4 it (hqsub it hit), h5, h6, h7⟩

theorem loopMeasure_requeue (s : LoopState) (q : TxPriorityQueue) (b : Bool)
    (h : q.items.length + (if b then 0 else 1)
      < s.pq.items.length + (if s.sortedByFee then 0 else 1)) :
    loopMeasure { s with pq := q, sortedByFee := b } < loopMeasure s := by
  unfold loopMeasure parkedCount
  dsimp only
  omega

/-- Core of the termination argument: accepting the popped candidate `x`
from a queue permuting to `x :: rest` preserves the loop invariant and
keeps the queued-plus-parked count at most `rest.length + parkedCount s`,
whatever the accounting fields become. -/
theorem QInv_accept_core (env : Env) (s : LoopState) (x : TxPrioItem)
    (qb : TxPriorityQueue) (b : Bool) (u : UtxoView) (bs : Nat) (bso tf : Int)
    (fees socs : List Int) (rest : List TxPrioItem)
    (hinv : QInv env s)
    (hperm : List.Perm s.pq.items (x :: rest))
    (hqb : List.Perm qb.items rest)
    (hflag : (if b then 0 else 1) ≤ (if s.sortedByFee then 0 else 1)) :
    QInv env (promoteDeps env (env.txHash x.tx)
      ((List.lookup (env.txHash x.tx) s.dependers).getD [])
      { s with
        pq := qb
        sortedByFee := b
        blockUtxos := u
        blockTxns := s.blockTxns ++ [x.tx]
        blockSize := bs
        blockSigOps := bso
        totalFees := tf
        txFees := fees
        txSigOpCounts := socs }) ∧
    loopMeasure (promoteDeps env (env.txHash x.tx)
      ((List.lookup (env.txHash x.tx) s.dependers).getD [])
      { s with
        pq := qb
        sortedByFee := b
        blockUtxos := u
        blockTxns := s.blockTxns ++ [x.tx]
        blockSize := bs
        blockSigOps := bso
        totalFees := tf
        txFees := fees
        txSigOpCounts := socs })
      < loopMeasure s := by
  obtain ⟨hBT, hLen, hNodI, hNodQ, hQ, hD, hDN, hPark⟩ := hinv
  have hx : x ∈ s.pq.items := hperm.symm.subset (List.mem_cons_self x rest)
  have hrsub : ∀ it ∈ rest, it ∈ s.pq.items :=
    fun it hit => hperm.symm.subset (List.mem_cons_of_mem x hit)
  have hQx := hQ x hx
  have hNodXR : (env.txHash x.tx :: rest.map (fun it => env.txHash it.tx)).Nodup := by
    have h1 := (hperm.map (fun it => env.txHash it.tx)).nodup_iff.mp hNodQ
    simpa using h1
  have hxh : env.txHash x.tx ∉ rest.map (fun it => env.txHash it.tx) :=
    (List.nodup_cons.mp hNodXR).1
  have hNodR : (rest.map (fun it => env.txHash it.tx)).Nodup :=
    (List.nodup_cons.mp hNodXR).2
  have hlen0 : rest.length + 1 = s.pq.items.length := by
    have h1 := hperm.length_eq
    simp only [List.length_cons] at h1
    omega
  have hdeps : ∀ c ∈ (List.lookup (env.txHash x.tx) s.dependers).getD [],
      goodItem env s c ∧ env.txHash x.tx ∈ s.depOn.getD c.id [] := by
    cases hlk : List.lookup (env.txHash x.tx) s.dependers with
    | none => intro c hc; simp at hc
    | some cs =>
      intro c hc
      simp only [Option.getD_some] at hc
      have hbucket := hD (env.txHash x.tx, cs) (lookupD_mem hlk) c hc
      refine ⟨hbucket.1, ?_⟩
      rcases hbucket.2 with hin | hA
      · exact hin
      · exact absurd hA hQx.2.2
  have hdnod : (((List.lookup (env.txHash x.tx) s.dependers).getD []).map
      (fun c => env.txHash c.tx)).Nodup := by
    cases hlk : List.lookup (env.txHash x.tx) s.dependers with
    | none => simp
    | some cs =>
      simp only [Option.getD_some]
      exact hDN (env.txHash x.tx, cs) (lookupD_mem hlk)
  have hidnod : (((List.lookup (env.txHash x.tx) s.dependers).getD []).map
      (fun c => c.id)).Nodup :=
    nodup_ids_of_good env s _ (fun c hc => (hdeps c hc).1) hdnod
  have hdisj : ∀ r2 ∈ rest, ∀ c ∈ (List.lookup (env.txHash x.tx) s.dependers).getD [],
      env.txHash r2.tx ≠ env.txHash c.tx := by
    intro r2 hr2 c hc heq
    have hQr := hQ r2 (hrsub r2 hr2)
    have hdc := hdeps c hc
    have hrc : r2 = c := good_hash_inj env s hNodI hQr.1 hdc.1 heq
    have h1 := hdc.2
    rw [← hrc, hQr.2.1] at h1
    simp at h1
  have hxc : ∀ c ∈ (List.lookup (env.txHash x.tx) s.dependers).getD [],
      env.txHash c.tx ≠ env.txHash x.tx := by
    intro c hc heq
    have hdc := hdeps c hc
    have hcx : c = x := good_hash_inj env s hNodI hdc.1 hQx.1 heq
    have h1 := hdc.2
    rw [hcx, hQx.2.1] at h1
    simp at h1
  set sacc : LoopState := { s with
    pq := qb
    sortedByFee := b
    blockUtxos := u
    blockTxns := s.blockTxns ++ [x.tx]
    blockSize := bs
    blockSigOps := bso
    totalFees := tf
    txFees := fees
    txSigOpCounts := socs } with hsacc
  have e1 : sacc.depOn = s.depOn := by rw [hsacc]
  have e2 : sacc.items = s.items := by rw [hsacc]
  have e3 : sacc.dependers = s.dependers := by rw [hsacc]
  have e4 : sacc.pq = qb := by rw [hsacc]
  have e5 : sacc.blockTxns = s.blockTxns ++ [x.tx] := by rw [hsacc]
  have e6 : sacc.sortedByFee = b := by rw [hsacc]
  obtain ⟨ps, hsubl, hpermQ, hempts, hlenD, hsubsetD, hretD, hmeasP⟩ :=
    promoteDeps_spec env (env.txHash x.tx)
      ((List.lookup (env.txHash x.tx) s.dependers).getD []) sacc
      (by
        intro c hc
        have h1 := hdeps c hc
        constructor
        · rw [e1, hLen]
          exact h1.1.1
        · rw [e1]
          exact h1.2)
      hidnod
  obtain ⟨hfU, hfT, hfS, hfO, hfF, hfFe, hfSo, hfI, hfDd, hfFl⟩ :=
    promoteDeps_fields env (env.txHash x.tx)
      ((List.lookup (env.txHash x.tx) s.dependers).getD []) sacc
  have haccR : acceptedHashes env (promoteDeps env (env.txHash x.tx)
      ((List.lookup (env.txHash x.tx) s.dependers).getD []) sacc)
      = acceptedHashes env s ++ [env.txHash x.tx] := by
    unfold acceptedHashes
    rw [hfT, e5, tail_append_ne s.blockTxns x.tx hBT, List.map_append]
    rfl
  have hgoodR : ∀ it, goodItem env s it →
      goodItem env (promoteDeps env (env.txHash x.tx)
        ((List.lookup (env.txHash x.tx) s.dependers).getD []) sacc) it := by
    intro it h1
    unfold goodItem at h1 ⊢
    rw [hfI, e2]
    exact h1
  have hRsub : ∀ id a, a ∈ (promoteDeps env (env.txHash x.tx)
      ((List.lookup (env.txHash x.tx) s.dependers).getD []) sacc).depOn.getD id [] →
      a ∈ s.depOn.getD id [] := by
    intro id a ha
    have h1 := hsubsetD id a ha
    rw [e1] at h1
    exact h1
  have hRret : ∀ id a, a ∈ s.depOn.getD id [] → a ≠ env.txHash x.tx →
      a ∈ (promoteDeps env (env.txHash x.tx)
        ((List.lookup (env.txHash x.tx) s.dependers).getD []) sacc).depOn.getD id [] := by
    intro id a ha hne
    exact hretD id a (by rw [e1]; exact ha) hne
  have hqmem : ∀ it ∈ (promoteDeps env (env.txHash x.tx)
      ((List.lookup (env.txHash x.tx) s.dependers).getD []) sacc).pq.items,
      it ∈ rest ∨ it ∈ ps := by
    intro it hit
    rcases List.mem_append.mp (hpermQ.subset hit) with h2 | h2
    · left
      rw [e4] at h2
      exact hqb.subset h2
    · right
      exact h2
  have hqnodR : ((promoteDeps env (env.txHash x.tx)
      ((List.lookup (env.txHash x.tx) s.dependers).getD []) sacc).pq.items.map
      (fun it => env.txHash it.tx)).Nodup := by
    apply ((hpermQ.map (fun it => env.txHash it.tx)).nodup_iff).mpr
    rw [List.map_append]
    apply List.Nodup.append
    · rw [e4]
      exact ((hqb.map _).nodup_iff).mpr hNodR
    · exact List.Nodup.sublist (hsubl.map _) hdnod
    · intro a ha hb
      rw [e4] at ha
      obtain ⟨r2, hr2, hr2e⟩ := List.mem_map.mp ha
      obtain ⟨c, hc, hce⟩ := List.mem_map.mp hb
      exact hdisj r2 (hqb.subset hr2) c (hsubl.subset hc) (hr2e.trans hce.symm)
  refine ⟨⟨?_, ?_, ?_, hqnodR, ?_, ?_, ?_, ?_⟩, ?_⟩
  · rw [hfT, e5]
    simp
  · rw [hlenD, e1, hfI, e2, hLen]
  · rw [hfI, e2]
    exact hNodI
  · intro it hit
    rcases hqmem it hit with h2 | h2
    · have hQi := hQ it (hrsub it h2)
      refine ⟨hgoodR it hQi.1, ?_, ?_⟩
      · apply List.eq_nil_iff_forall_not_mem.mpr
        intro a ha
        have h3 := hRsub it.id a ha
        rw [hQi.2.1] at h3
        simp at h3
      · rw [haccR]
        intro hmem
        rcases List.mem_append.mp hmem with h3 | h3
        · exact hQi.2.2 h3
        · simp only [List.mem_singleton] at h3
          apply hxh
          rw [← h3]
          exact List.mem_map.mpr ⟨it, h2, rfl⟩
    · have hdi := hdeps it (hsubl.subset h2)
      refine ⟨hgoodR it hdi.1, hempts it h2, ?_⟩
      rw [haccR]
      intro hmem
      rcases List.mem_append.mp hmem with h3 | h3
      · have h4 := hPark it.id (List.ne_nil_of_mem hdi.2)
        rw [hdi.1.2] at h4
        exact h4 h3
      · simp only [List.mem_singleton] at h3
        exact hxc it (hsubl.subset h2) h3
  · intro p hp c hc
    rw [hfDd, e3] at hp
    have h1 := hD p hp c hc
    refine ⟨hgoodR c h1.1, ?_⟩
    rcases h1.2 with h2 | h2
    · by_cases hph : p.1 = env.txHash x.tx
      · right
        rw [haccR, hph]
        exact List.mem_append_right _ (List.mem_singleton.mpr rfl)
      · left
        exact hRret c.id p.1 h2 hph
    · right
      rw [haccR]
      exact List.mem_append_left _ h2
  · intro p hp
    rw [hfDd, e3] at hp
    exact hDN p hp
  · intro id hne
    have hSne : s.depOn.getD id [] ≠ [] := by
      intro h0
      apply hne
      apply List.eq_nil_iff_forall_not_mem.mpr
      intro a ha
      have h3 := hRsub id a ha
      rw [h0] at h3
      simp at h3
    have h1 := hPark id hSne
    have hidlt : id < s.items.length := by
      rw [← hLen]
      by_contra hge
      push_neg at hge
      exact hSne (getD_default_of_le s.depOn id hge)
    rw [hfI, e2, haccR]
    intro hmem
    rcases List.mem_append.mp hmem with h3 | h3
    · exact h1 h3
    · simp only [List.mem_singleton] at h3
      have hxlt : x.id < s.items.length := hQx.1.1
      have hmap1 : (s.items.map (fun it => env.txHash it.tx)).getD id 0
          = env.txHash (s.items.getD id default).tx :=
        getD_map_hash env s.items id hidlt
      have hmap2 : (s.items.map (fun it => env.txHash it.tx)).getD x.id 0
          = env.txHash (s.items.getD x.id default).tx :=
        getD_map_hash env s.items x.id hxlt
      have heq2 : (s.items.map (fun it => env.txHash it.tx)).getD id 0
          = (s.items.map (fun it => env.txHash it.tx)).getD x.id 0 := by
        rw [hmap1, hmap2, hQx.1.2, h3]
      have hid : id = x.id := nodup_getD_inj _ id x.id hNodI
        (by simpa using hidlt) (by simpa using hxlt) heq2
      rw [hid, hQx.2.1] at hSne
      exact hSne rfl
  · have hm2 : sacc.pq.items.length = rest.length := by
      rw [e4]
      exact hqb.length_eq
    have hm3 : parkedCount sacc = parkedCount s := by
      unfold parkedCount
      rw [e1]
    unfold loopMeasure
    rw [hfFl, e6]
    omega

/-- One iteration of the assembly loop on a nonempty queue preserves the
invariant and strictly decreases the measure. -/
theorem assembleStep_measure (env : Env) (nH : Nat) (s : LoopState)
    (hq : s.pq.items ≠ []) (hinv : QInv env s) :
    QInv env (assembleStep env nH s) ∧
    loopMeasure (assembleStep env nH s) < loopMeasure s := by
  obtain ⟨x2, rest2, hpop, hperm0, hlen0⟩ :=
    heapPop_spec (pqLess s.pq.byFee) s.pq.items hq
  unfold assembleStep
  split
  · rename_i heq
    rw [heq] at hpop
    simp at hpop
  · rename_i item rest heq
    rw [heq] at hpop
    simp only [Option.some.injEq, Prod.mk.injEq] at hpop
    obtain ⟨hpx, hpr⟩ := hpop
    subst hpx
    subst hpr
    have hrsub : ∀ it ∈ rest, it ∈ s.pq.items :=
      fun it hit => hperm0.symm.subset (List.mem_cons_of_mem item hit)
    have hxmem : item ∈ s.pq.items := hperm0.symm.subset (List.mem_cons_self item rest)
    have hNodQ : (s.pq.items.map (fun it => env.txHash it.tx)).Nodup := hinv.2.2.2.1
    have hNodXR : (env.txHash item.tx ::
        rest.map (fun it => env.txHash it.tx)).Nodup := by
      have h1 := (hperm0.map (fun it => env.txHash it.tx)).nodup_iff.mp hNodQ
      simpa using h1
    have hNodR : (rest.map (fun it => env.txHash it.tx)).Nodup :=
      (List.nodup_cons.mp hNodXR).2
    have hskip : QInv env { s with pq := ⟨s.pq.byFee, rest⟩ } ∧
        loopMeasure { s with pq := ⟨s.pq.byFee, rest⟩ } < loopMeasure s := by
      constructor
      · exact QInv_requeue env s ⟨s.pq.byFee, rest⟩ s.sortedByFee hrsub hNodR hinv
      · apply loopMeasure_requeue
        dsimp only
        omega
    dsimp only
    split
    · exact hskip
    · split
      · exact hskip
      · split
        · exact hskip
        · rename_i p2sh hps
          split
          · exact hskip
          · split
            · exact hskip
            · split
              · rename_i htr
                split
                · -- the popped candidate is pushed back after the transition
                  have hq0sub : ∀ it ∈ heapPush (pqLess true)
                      (heapInit (pqLess true) rest) item, it ∈ s.pq.items := by
                    intro it hit
                    have h1 := (heapPush_perm (pqLess true)
                      (heapInit (pqLess true) rest) item).subset hit
                    rcases List.mem_append.mp h1 with h2 | h2
                    · exact hrsub it ((heapInit_perm (pqLess true) rest).subset h2)
                    · simp only [List.mem_singleton] at h2
                      rw [h2]
                      exact hxmem
                  have hq0nod : ((heapPush (pqLess true) (heapInit (pqLess true) rest)
                      item).map (fun it => env.txHash it.tx)).Nodup := by
                    have hbig : List.Perm (heapPush (pqLess true)
                        (heapInit (pqLess true) rest) item) (rest ++ [item]) :=
                      (heapPush_perm _ _ _).trans
                        ((heapInit_perm (pqLess true) rest).append_right [item])
                    apply ((hbig.map (fun it => env.txHash it.tx)).nodup_iff).mpr
                    rw [List.map_append]
                    apply (List.perm_append_comm.nodup_iff).mpr
                    simpa using hNodXR
                  constructor
                  · exact QInv_requeue env s
                      ⟨true, heapPush (pqLess true) (heapInit (pqLess true) rest) item⟩
                      true hq0sub hq0nod hinv
                  · refine loopMeasure_requeue s
                      ⟨true, heapPush (pqLess true) (heapInit (pqLess true) rest) item⟩
                      true ?_
                    have hl1 : (heapPush (pqLess true) (heapInit (pqLess true) rest)
                        item).length = rest.length + 1 := by
                      rw [heapPush_length, (heapInit_perm (pqLess true) rest).length_eq]
                    have hsf : s.sortedByFee = false := htr.1
                    dsimp only
                    rw [hsf]
                    have hitT : (if (true : Bool) then (0 : Nat) else 1) = 0 := rfl
                    have hitF : (if (false : Bool) then (0 : Nat) else 1) = 1 := rfl
                    rw [hitT, hitF]
                    omega
                · -- acceptance attempt after the transition
                  rcases acceptTx_full env nH
                      { s with sortedByFee := true, pq := pqSetLess true ⟨s.pq.byFee, rest⟩ }
                      item (u32 (env.serializeSize item.tx))
                      (add64 (i64 (env.countSigOps item.tx)) (i64 p2sh)) with hsk | hacc
                  · rw [hsk]
                    constructor
                    · exact QInv_requeue env s (pqSetLess true ⟨s.pq.byFee, rest⟩) true
                        (fun it hit => hrsub it
                          ((heapInit_perm (pqLess true) rest).subset hit))
                        (((heapInit_perm (pqLess true) rest).map _).nodup_iff.mpr hNodR)
                        hinv
                    · refine loopMeasure_requeue s (pqSetLess true ⟨s.pq.byFee, rest⟩)
                        true ?_
                      have hl1 : (pqSetLess true ⟨s.pq.byFee, rest⟩).items.length
                          = rest.length :=
                        (heapInit_perm (pqLess true) rest).length_eq
                      have hitT : (if (true : Bool) then (0 : Nat) else 1) = 0 := rfl
                      rw [hitT]
                      omega
                  · rw [hacc]
                    exact QInv_accept_core env s item (pqSetLess true ⟨s.pq.byFee, rest⟩)
                      true _ _ _ _ _ _ rest hinv hperm0
                      (heapInit_perm (pqLess true) rest) (by simp)
              · -- acceptance attempt without a transition
                rcases acceptTx_full env nH { s with pq := ⟨s.pq.byFee, rest⟩ }
                    item (u32 (env.serializeSize item.tx))
                    (add64 (i64 (env.countSigOps item.tx)) (i64 p2sh)) with hsk | hacc
                · rw [hsk]
                  exact hskip
                · rw [hacc]
                  exact QInv_accept_core env s item ⟨s.pq.byFee, rest⟩ s.sortedByFee
                    _ _ _ _ _ _ rest hinv hperm0 (List.Perm.refl rest) (le_refl _)

/-- With fuel at least the measure, the assembly loop drains the queue. -/
theorem assembleLoop_drain (env : Env) (nH : Nat) :
    ∀ (fuel : Nat) (s : LoopState), QInv env s → loopMeasure s ≤ fuel →
      (assembleLoop env nH fuel s).pq.items = [] := by
  intro fuel
  induction fuel with
  | zero =>
    intro s _ hm
    have h1 : s.pq.items.length = 0 := by
      unfold loopMeasure at hm
      omega
    have h2 : assembleLoop env nH 0 s = s := rfl
    rw [h2]
    exact List.length_eq_zero.mp h1
  | succ f ih =>
    intro s hinv hm
    unfold assembleLoop
    split
    · rename_i hemp
      cases hl : s.pq.items with
      | nil => rfl
      | cons a t =>
        rw [hl] at hemp
        simp at hemp
    · rename_i hemp
      have hne : s.pq.items ≠ [] := by
        intro h0
        rw [h0] at hemp
        simp at hemp
      obtain ⟨hinv2, hlt⟩ := assembleStep_measure env nH s hne hinv
      exact ih (assembleStep env nH s) hinv2 (by omega)

/-- Members of a tracker bucket after a child insertion. -/
theorem dependersChildAdd_mem (env : Env) (deps : List TxPrioItem)
    (item c : TxPrioItem) (hc : c ∈ dependersChildAdd env deps item) :
    c ∈ deps ∨ c = item := by
  unfold dependersChildAdd at hc
  split at hc
  · rcases List.mem_map.mp hc with ⟨q, hq, hqe⟩
    by_cases hb : (env.txHash q.tx == env.txHash item.tx) = true
    · rw [if_pos hb] at hqe
      right
      exact hqe.symm
    · rw [if_neg hb] at hqe
      left
      rw [← hqe]
      exact hq
  · rcases List.mem_append.mp hc with h1 | h1
    · left
      exact h1
    · right
      simpa using h1

/-- The hash image of a bucket after a child insertion: unchanged on
overwrite, extended by a fresh hash otherwise. -/
theorem dependersChildAdd_hashes (env : Env) (deps : List TxPrioItem)
    (item : TxPrioItem) :
    (dependersChildAdd env deps item).map (fun c => env.txHash c.tx)
      = deps.map (fun c => env.txHash c.tx) ∨
    ((dependersChildAdd env deps item).map (fun c => env.txHash c.tx)
        = deps.map (fun c => env.txHash c.tx) ++ [env.txHash item.tx] ∧
      env.txHash item.tx ∉ deps.map (fun c => env.txHash c.tx)) := by
  unfold dependersChildAdd
  split
  · left
    rw [List.map_map]
    apply List.map_congr_left
    intro c hc
    dsimp only [Function.comp]
    split
    · rename_i hb
      exact (by simpa using hb : env.txHash c.tx = env.txHash item.tx).symm
    · rfl
  · rename_i hany
    right
    constructor
    · rw [List.map_append]
      rfl
    · intro hmem
      apply hany
      rcases List.mem_map.mp hmem with ⟨c, hc, hce⟩
      exact List.any_eq_true.mpr ⟨c, hc, by simpa using hce⟩

theorem dependersChildAdd_nodup (env : Env) (deps : List TxPrioItem)
    (item : TxPrioItem)
    (hnd : (deps.map (fun c => env.txHash c.tx)).Nodup) :
    ((dependersChildAdd env deps item).map (fun c => env.txHash c.tx)).Nodup := by
  rcases dependersChildAdd_hashes env deps item with h | ⟨h, hfresh⟩
  · rw [h]
    exact hnd
  · rw [h]
    apply (List.perm_append_comm.nodup_iff).mpr
    exact List.nodup_cons.mpr ⟨hfresh, hnd⟩

/-- Any bucket-key-indexed property of tracker children is preserved by an
edge insertion, provided the inserted child satisfies it at its key. -/
theorem dependersAdd_pres (env : Env) (P : Nat → TxPrioItem → Prop)
    (dd : List (Nat × List TxPrioItem)) (parent : Nat) (item : TxPrioItem)
    (hdd : ∀ p ∈ dd, ∀ c ∈ p.2, P p.1 c) (hit : P parent item) :
    ∀ p ∈ dependersAdd env dd parent item, ∀ c ∈ p.2, P p.1 c := by
  unfold dependersAdd
  split
  · intro p hp c hc
    rcases List.mem_map.mp hp with ⟨q, hq, hqe⟩
    by_cases hkey : q.1 = parent
    · rw [if_pos hkey] at hqe
      rw [← hqe] at hc ⊢
      rcases dependersChildAdd_mem env q.2 item c hc with h1 | h1
      · exact hdd q hq c h1
      · rw [h1]
        rw [hkey]
        exact hit
    · rw [if_neg hkey] at hqe
      rw [← hqe] at hc ⊢
      exact hdd q hq c hc
  · intro p hp c hc
    rcases List.mem_append.mp hp with h1 | h1
    · exact hdd p h1 c hc
    · simp only [List.mem_singleton] at h1
      rw [h1] at hc ⊢
      have hci : c = item := by
        rcases dependersChildAdd_mem env [] item c hc with h2 | h2
        · simp at h2
        · exact h2
      rw [hci]
      exact hit

theorem dependersAdd_nodup (env : Env) (dd : List (Nat × List TxPrioItem))
    (parent : Nat) (item : TxPrioItem)
    (hnd : ∀ p ∈ dd, (p.2.map (fun c => env.txHash c.tx)).Nodup) :
    ∀ p ∈ dependersAdd env dd parent item,
      (p.2.map (fun c => env.txHash c.tx)).Nodup := by
  unfold dependersAdd
  split
  · intro p hp
    rcases List.mem_map.mp hp with ⟨q, hq, hqe⟩
    by_cases hkey : q.1 = parent
    · rw [if_pos hkey] at hqe
      rw [← hqe]
      exact dependersChildAdd_nodup env q.2 item (hnd q hq)
    · rw [if_neg hkey] at hqe
      rw [← hqe]
      exact hnd q hq
  · intro p hp
    rcases List.mem_append.mp hp with h1 | h1
    · exact hnd p h1
    · simp only [List.mem_singleton] at h1
      rw [h1]
      simp [dependersChildAdd]

theorem dependersFold_pres (env : Env) (P : Nat → TxPrioItem → Prop)
    (item : TxPrioItem) :
    ∀ (parents : List Nat) (dd : List (Nat × List TxPrioItem)),
      (∀ p ∈ dd, ∀ c ∈ p.2, P p.1 c) → (∀ h ∈ parents, P h item) →
      ∀ p ∈ parents.foldl (fun dd h => dependersAdd env dd h item) dd,
        ∀ c ∈ p.2, P p.1 c := by
  intro parents
  induction parents with
  | nil => intro dd hdd _; exact hdd
  | cons h hs ih =>
    intro dd hdd hps
    rw [List.foldl_cons]
    exact ih (dependersAdd env dd h item)
      (dependersAdd_pres env P dd h item hdd (hps h (List.mem_cons_self h hs)))
      (fun h2 hh2 => hps h2 (List.mem_cons_of_mem h hh2))

theorem dependersFold_nodup (env : Env) (item : TxPrioItem) :
    ∀ (parents : List Nat) (dd : List (Nat × List TxPrioItem)),
      (∀ p ∈ dd, (p.2.map (fun c => env.txHash c.tx)).Nodup) →
      ∀ p ∈ parents.foldl (fun dd h => dependersAdd env dd h item) dd,
        (p.2.map (fun c => env.txHash c.tx)).Nodup := by
  intro parents
  induction parents with
  | nil => intro dd hdd; exact hdd
  | cons h hs ih =>
    intro dd hdd
    rw [List.foldl_cons]
    exact ih (dependersAdd env dd h item) (dependersAdd_nodup env dd h item hdd)

/-- Appending a fresh candidate (with its dependency entry and its tracker
edges) preserves the builder invariant. -/
theorem BInv_extend (env : Env) (b : BuildState) (item : TxPrioItem)
    (parents : List Nat)
    (hid : item.id = b.items.length)
    (hinv : BInv env b)
    (hfresh : env.txHash item.tx ∉ b.items.map (fun it => env.txHash it.tx)) :
    BInv env { b with
      items := b.items ++ [item]
      depOn := b.depOn ++ [parents]
      dependers := parents.foldl (fun dd h => dependersAdd env dd h item)
        b.dependers } ∧
    (b.items ++ [item]).getD item.id default = item ∧
    (b.depOn ++ [parents]).getD item.id [] = parents := by
  obtain ⟨j1, j2, j3, j4, j5, j6, j7⟩ := hinv
  have g1 : (b.items ++ [item]).getD item.id default = item := by
    rw [hid, List.getD_append_right]
    · simp
    · exact le_refl _
  have g2 : (b.depOn ++ [parents]).getD item.id [] = parents := by
    rw [hid, ← j1, List.getD_append_right]
    · simp
    · exact le_refl _
  refine ⟨⟨?_, ?_, j3, ?_, ?_, ?_, ?_⟩, g1, g2⟩
  · dsimp only
    simp only [List.length_append, List.length_singleton]
    omega
  · dsimp only
    rw [List.map_append]
    apply (List.perm_append_comm.nodup_iff).mpr
    exact List.nodup_cons.mpr ⟨hfresh, j2⟩
  · intro it hit
    dsimp only at hit ⊢
    have h1 := j4 it hit
    have hlt : it.id < b.items.length := h1.1.1
    refine ⟨⟨?_, ?_⟩, ?_⟩
    · simp only [List.length_append, List.length_singleton]
      omega
    · rw [List.getD_append b.items [item] default it.id hlt]
      exact h1.1.2
    · rw [List.getD_append b.depOn [parents] [] it.id (by omega)]
      exact h1.2
  · dsimp only
    apply dependersFold_pres env
      (fun h c => (c.id < (b.items ++ [item]).length ∧
        (b.items ++ [item]).getD c.id default = c) ∧
        h ∈ (b.depOn ++ [parents]).getD c.id [])
      item parents b.dependers
    · intro p hp c hc
      have h1 := j5 p hp c hc
      have hlt : c.id < b.items.length := h1.1.1
      refine ⟨⟨?_, ?_⟩, ?_⟩
      · simp only [List.length_append, List.length_singleton]
        omega
      · rw [List.getD_append b.items [item] default c.id hlt]
        exact h1.1.2
      · rw [List.getD_append b.depOn [parents] [] c.id (by omega)]
        exact h1.2
    · intro h hh
      refine ⟨⟨?_, g1⟩, ?_⟩
      · rw [hid]
        simp
      · rw [g2]
        exact hh
  · intro p hp
    dsimp only at hp
    exact dependersFold_nodup env item parents b.dependers j6 p hp
  · dsimp only
    rw [List.countP_append]
    have hc1 : List.countP (fun d => !d.isEmpty) [parents] ≤ 1 := by
      simp only [List.countP_cons, List.countP_nil]
      split_ifs <;> omega
    simp only [List.length_append, List.length_singleton]
    omega

/-- Appending a fresh rooted candidate and pushing it on the queue preserves
the builder invariant. -/
theorem BInv_extend_push (env : Env) (b : BuildState) (item : TxPrioItem)
    (hid : item.id = b.items.length)
    (hinv : BInv env b)
    (hfresh : env.txHash item.tx ∉ b.items.map (fun it => env.txHash it.tx)) :
    BInv env { b with
      items := b.items ++ [item]
      depOn := b.depOn ++ [[]]
      pq := ⟨b.pq.byFee, heapPush (pqLess b.pq.byFee) b.pq.items item⟩ } := by
  obtain ⟨hext, g1, g2⟩ := BInv_extend env b item [] hid hinv hfresh
  obtain ⟨j1, j2, j3, j4, j5, j6, j7⟩ := hext
  have hq3 : env.txHash item.tx ∉ b.pq.items.map (fun it => env.txHash it.tx) := by
    intro hmem
    rcases List.mem_map.mp hmem with ⟨it, hit, hite⟩
    have h1 := hinv.2.2.2.1 it hit
    have h2 : env.txHash it.tx ∈ b.items.map (fun it => env.txHash it.tx) := by
      have h3 := getD_map_hash env b.items it.id h1.1.1
      rw [h1.1.2] at h3
      rw [← h3]
      exact getD_mem_nat _ it.id (by simpa using h1.1.1)
    rw [hite] at h2
    exact hfresh h2
  refine ⟨j1, j2, ?_, ?_, j5, j6, ?_⟩
  · dsimp only
    have hbig : List.Perm (heapPush (pqLess b.pq.byFee) b.pq.items item)
        (b.pq.items ++ [item]) := heapPush_perm _ _ _
    apply ((hbig.map (fun it => env.txHash it.tx)).nodup_iff).mpr
    rw [List.map_append]
    apply (List.perm_append_comm.nodup_iff).mpr
    exact List.nodup_cons.mpr ⟨hq3, hinv.2.2.1⟩
  · intro it hit
    dsimp only at hit
    rcases List.mem_append.mp ((heapPush_perm _ _ _).subset hit) with h2 | h2
    · exact j4 it h2
    · simp only [List.mem_singleton] at h2
      subst h2
      refine ⟨⟨?_, g1⟩, g2⟩
      rw [hid]
      simp
  · dsimp only
    rw [heapPush_length, List.countP_append]
    have hc0 : List.countP (fun d => !d.isEmpty) [([] : List Nat)] = 0 := rfl
    rw [hc0]
    simp only [List.length_append, List.length_singleton]
    have j7b := hinv.2.2.2.2.2.2
    omega

/-- One builder iteration preserves the invariant; the item list grows by at
most one entry whose hash is the processed descriptor's. -/
theorem buildStep_inv (env : Env) (nH : Nat) (b : BuildState) (d : TxDesc)
    (hinv : BInv env b)
    (hfresh : env.txHash d.tx ∉ b.items.map (fun it => env.txHash it.tx)) :
    BInv env (buildStep env nH b d) ∧
    (buildStep env nH b d).items.length ≤ b.items.length + 1 ∧
    ((buildStep env nH b d).items.map (fun it => env.txHash it.tx)
        = b.items.map (fun it => env.txHash it.tx) ∨
      (buildStep env nH b d).items.map (fun it => env.txHash it.tx)
        = b.items.map (fun it => env.txHash it.tx) ++ [env.txHash d.tx]) := by
  unfold buildStep
  dsimp only
  split
  · exact ⟨hinv, by omega, Or.inl rfl⟩
  · split
    · exact ⟨hinv, by omega, Or.inl rfl⟩
    · split
      · -- the candidate is abandoned
        obtain ⟨hext, _, _⟩ := BInv_extend env b
          ⟨b.items.length, d.tx, 0, 0, 0, false⟩
          (scanInputs env (fetchUtxoView env d.tx) d.tx.txIn []).1 rfl hinv hfresh
        refine ⟨hext, ?_, Or.inr ?_⟩
        · dsimp only
          simp only [List.length_append, List.length_singleton]
          omega
        · dsimp only
          rw [List.map_append]
          rfl
      · split
        · -- rooted: appended and pushed
          rename_i hpe
          have hpnil : (scanInputs env (fetchUtxoView env d.tx) d.tx.txIn []).1 = [] := by
            cases h2 : (scanInputs env (fetchUtxoView env d.tx) d.tx.txIn []).1 with
            | nil => rfl
            | cons a t =>
              rw [h2] at hpe
              simp at hpe
          refine ⟨?_, ?_, Or.inr ?_⟩
          · rw [hpnil]
            exact BInv_extend_push env b
              ⟨b.items.length, d.tx, d.fee,
                env.calcPriority d.tx (fetchUtxoView env d.tx) nH,
                Int.tdiv (i64 (d.fee * 1000)) (Int.ofNat (env.serializeSize d.tx)),
                isAdmin env d.tx⟩ rfl hinv hfresh
          · dsimp only
            simp only [List.length_append, List.length_singleton]
            omega
          · dsimp only
            rw [List.map_append]
            rfl
        · -- parked: appended with its parents recorded
          refine ⟨?_, ?_, Or.inr ?_⟩
          · exact (BInv_extend env b
              ⟨b.items.length, d.tx, d.fee,
                env.calcPriority d.tx (fetchUtxoView env d.tx) nH,
                Int.tdiv (i64 (d.fee * 1000)) (Int.ofNat (env.serializeSize d.tx)),
                isAdmin env d.tx⟩
              (scanInputs env (fetchUtxoView env d.tx) d.tx.txIn []).1
              rfl hinv hfresh).1
          · dsimp only
            simp only [List.length_append, List.length_singleton]
            omega
          · dsimp only
            rw [List.map_append]
            rfl

/-- The builder fold preserves the invariant over any suffix of fresh,
hash-distinct descriptors. -/
theorem buildFold_inv (env : Env) (nH : Nat) :
    ∀ (ds : List TxDesc) (b : BuildState),
      BInv env b →
      (∀ d ∈ ds, env.txHash d.tx ∉ b.items.map (fun it => env.txHash it.tx)) →
      (ds.map (fun d => env.txHash d.tx)).Nodup →
      BInv env (ds.foldl (buildStep env nH) b) ∧
      (ds.foldl (buildStep env nH) b).items.length ≤ b.items.length + ds.length := by
  intro ds
  induction ds with
  | nil =>
    intro b hb _ _
    exact ⟨hb, by simp⟩
  | cons d ds2 ih =>
    intro b hb hf hnd
    rw [List.foldl_cons]
    obtain ⟨hb1, hhi, hmap⟩ :=
      buildStep_inv env nH b d hb (hf d (List.mem_cons_self d ds2))
    have hf2 : ∀ d2 ∈ ds2, env.txHash d2.tx ∉
        (buildStep env nH b d).items.map (fun it => env.txHash it.tx) := by
      intro d2 hd2 hmem
      rcases hmap with he | he
      · rw [he] at hmem
        exact hf d2 (List.mem_cons_of_mem d hd2) hmem
      · rw [he] at hmem
        rcases List.mem_append.mp hmem with h1 | h1
        · exact hf d2 (List.mem_cons_of_mem d hd2) h1
        · simp only [List.mem_singleton] at h1
          simp only [List.map_cons, List.nodup_cons] at hnd
          exact hnd.1 (by rw [← h1]; exact List.mem_map.mpr ⟨d2, hd2, rfl⟩)
    have hnd2 : (ds2.map (fun d => env.txHash d.tx)).Nodup := by
      simp only [List.map_cons, List.nodup_cons] at hnd
      exact hnd.2
    obtain ⟨hres, hlen⟩ := ih (buildStep env nH b d) hb1 hf2 hnd2
    refine ⟨hres, ?_⟩
    simp only [List.length_cons]
    omega

/-- The builder's result satisfies the invariant when the pool hashes are
distinct, and creates at most one candidate per source transaction. -/
theorem buildCandidates_inv (env : Env) (nH : Nat)
    (hnd : (env.sourceTxns.map (fun d => env.txHash d.tx)).Nodup) :
    BInv env (buildCandidates env nH) ∧
    (buildCandidates env nH).items.length ≤ env.sourceTxns.length := by
  unfold buildCandidates
  have h0 : (newTxPriorityQueue (env.blockPrioritySize == 0)).items = [] := by
    unfold newTxPriorityQueue pqSetLess
    dsimp only
    exact (heapInit_perm _ _).eq_nil
  have hb0 : BInv env ⟨[], [], [], newTxPriorityQueue (env.blockPrioritySize == 0), []⟩ := by
    refine ⟨rfl, by simp, ?_, ?_, ?_, ?_, ?_⟩
    · show ((newTxPriorityQueue (env.blockPrioritySize == 0)).items.map
        (fun it => env.txHash it.tx)).Nodup
      rw [h0]
      simp
    · intro it hit
      rw [show (⟨[], [], [], newTxPriorityQueue (env.blockPrioritySize == 0), []⟩ :
        BuildState).pq.items = [] from h0] at hit
      simp at hit
    · intro p hp
      simp at hp
    · intro p hp
      simp at hp
    · show (newTxPriorityQueue (env.blockPrioritySize == 0)).items.length
        + List.countP (fun d => !d.isEmpty) ([] : List (List Nat))
        ≤ ([] : List TxPrioItem).length
      rw [h0]
      simp
  obtain ⟨h1, h2⟩ := buildFold_inv env nH env.sourceTxns
    ⟨[], [], [], newTxPriorityQueue (env.blockPrioritySize == 0), []⟩ hb0
    (by intro d hd; simp) hnd
  exact ⟨h1, by simpa using h2⟩

/-- The entry state of the assembly loop satisfies the loop invariant and
its measure is at most one more than the number of candidates. -/
theorem initLoopState_QInv (env : Env) (cb : MsgTx) (b : BuildState)
    (hb : BInv env b) :
    QInv env (initLoopState env cb b) ∧
    loopMeasure (initLoopState env cb b) ≤ b.items.length + 1 := by
  obtain ⟨j1, j2, j3, j4, j5, j6, j7⟩ := hb
  constructor
  · refine ⟨?_, j1, j2, j3, ?_, ?_, j6, ?_⟩
    · simp [initLoopState]
    · intro it hit
      have h1 := j4 it hit
      exact ⟨h1.1, h1.2, by simp [acceptedHashes, initLoopState]⟩
    · intro p hp c hc
      have h1 := j5 p hp c hc
      exact ⟨h1.1, Or.inl h1.2⟩
    · intro id hne
      simp [acceptedHashes, initLoopState]
  · unfold loopMeasure parkedCount initLoopState
    dsimp only
    have hle1 : (if (env.blockPrioritySize == 0 : Bool) then 0 else 1) ≤ 1 := by
      split_ifs <;> omega
    omega

/-- C9: the assembly loop of `NewBlockTemplate` terminates for every finite
source pool whose transaction hashes are distinct (as the hash function
guarantees in practice): every candidate is enqueued at most once by the
builder and at most once by dependency promotion, and the priority-to-fee
transition pushes a popped candidate back at most once overall, so within
the fuel `loopFuel env = sourceTxns.length + 2` the queue empties — the
loop exits with an empty queue rather than by fuel exhaustion. -/
theorem C9_loop_termination (env : Env) (cb : MsgTx)
    (hnd : (env.sourceTxns.map (fun d => env.txHash d.tx)).Nodup) :
    (templateState env cb).pq.items = [] := by
  unfold templateState loopFuel
  obtain ⟨hb, hbl⟩ := buildCandidates_inv env (nextBlockHeight env) hnd
  obtain ⟨hq, hm⟩ :=
    initLoopState_QInv env cb (buildCandidates env (nextBlockHeight env)) hb
  exact assembleLoop_drain env (nextBlockHeight env) (env.sourceTxns.length + 2)
    (initLoopState env cb (buildCandidates env (nextBlockHeight env)))
    hq (by omega)

theorem C9_loop_termination_witness :
    (feeEnv.sourceTxns.map (fun d => feeEnv.txHash d.tx)).Nodup ∧
    (templateState feeEnv feeCb).pq.items = [] :=
  ⟨by decide, C9_loop_termination feeEnv feeCb (by decide)⟩

end Prova
